import Mathlib

/-!
Verification of the statespace-determination core of the
kf-sf-flu-nowcasting repository (`src/utils/us_fusion.py`, with
collaborator data from `src/utils/geo/locations.py` and
`src/utils/geo/populations.py`).

Matrices of exact rationals (Python `Fraction`s) are embedded as lists of
rows (`List (List ℚ)`).  Two boundary points of the source touch floating
point.  The conversion `float(x)` used by `UsFusion.eliminate` solely to
select a pivot of maximal magnitude is modelled at two levels of fidelity:
`eliminate` selects by the exact magnitude `|x|` (adequate for the
concrete statespace computations below, whose scanned entries convert to
float without loss of the comparisons), while `eliminateF` converts every
scanned entry with `toFloat`, the exact IEEE-754 binary64 rounding (round
to nearest, ties to even, gradual underflow; the `OverflowError` that
Python's `float` raises for magnitudes reaching `2 ^ 1024` is returned as
`none`).  Under `toFloat` a nonzero rational below the subnormal range
converts to `0`, exactly as Python's `float` underflows to `0.0`.  The
final `astype(np.float)` cast in `determine_statespace` is modelled as
the identity on exact rationals.  Fallible operations (Python exceptions)
return `Except` or `Option`.
-/

/- Batteries marks the arithmetic on `Rat` irreducible, which prevents the
`decide` tactic from evaluating concrete rational computations; restore the
default reducibility for this development (the kernel is unaffected). -/
attribute [local semireducible] Rat.add Rat.mul Rat.sub Rat.inv Rat.ofScientific

abbrev Mat : Type := List (List ℚ)

/-- Entry of a row at column `j` (`0` outside the row; rows of a numpy
matrix all have the same width, which we carry as hypotheses). -/
def getQ (l : List ℚ) (j : Nat) : ℚ := l.getD j 0

/-- Number of columns of a matrix, read off the first row
(numpy `X.shape[1]` for a nonempty rectangular matrix). -/
def numCols (M : Mat) : Nat := (M.headD []).length

/-- Apply `f` to the entries of a row from column `c` onward
(the slice update `row[c:] = f(row[c:])`). -/
def mapFrom : Nat → (ℚ → ℚ) → List ℚ → List ℚ
  | 0, f, r => r.map f
  | _ + 1, _, [] => []
  | c + 1, f, x :: xs => x :: mapFrom c f xs

/-- Combine two rows pointwise from column `c` onward, keeping the left
row's entries before `c` (the slice update `row[c:] = f(row[c:], p[c:])`). -/
def zipFrom : Nat → (ℚ → ℚ → ℚ) → List ℚ → List ℚ → List ℚ
  | 0, f, r, p => List.zipWith f r p
  | _ + 1, _, [], _ => []
  | c + 1, f, x :: xs, p => x :: zipFrom c f xs p.tail

/-- `X[r, c:] /= v` : divide a row by `v` from column `c` onward. -/
def rowDivFrom (c : Nat) (v : ℚ) (row : List ℚ) : List ℚ :=
  mapFrom c (fun x => x / v) row

/-- `X[i, c:] -= k * X[r, c:]` : subtract `k` times the pivot row `p`
from `row`, from column `c` onward. -/
def rowSubFrom (c : Nat) (k : ℚ) (p row : List ℚ) : List ℚ :=
  zipFrom c (fun x y => x - k * y) row p

/-- Index of the first entry of maximal absolute value
(`np.argmax(np.abs(values))`; numpy returns the first maximum). -/
def argmaxAbs : List ℚ → Nat
  | [] => 0
  | x :: xs =>
    let j := argmaxAbs xs
    if |x| < |getQ xs j| then j + 1 else 0

/-- Swap the rows at positions `0` and `i` of a matrix
(`X[[r, i]] = X[[i, r]]` with the remaining rows `X[r:]` as the list). -/
def listSwap (l : Mat) (i : Nat) : Mat :=
  let a := l.getD 0 []
  let b := l.getD i []
  (l.set 0 b).set i a

/-- Column `c` of the remaining rows (`X[r:, c]`). -/
def colAt (c : Nat) (rest : Mat) : List ℚ :=
  rest.map (fun row => getQ row c)

/-- Floor of the base-2 logarithm, by fuel-based structural recursion
(`natLog2Aux n n` suffices, since repeated halving reaches `1` within `n`
steps). -/
def natLog2Aux : Nat → Nat → Nat
  | 0, _ => 0
  | fuel + 1, n => if n ≤ 1 then 0 else natLog2Aux fuel (n / 2) + 1

/-- Floor of the base-2 logarithm of a positive natural number. -/
def natLog2 (n : Nat) : Nat := natLog2Aux n n

/-- Nearest integer to the fraction `n / d` of natural numbers (`d ≠ 0`),
ties going to the even integer — the rounding of IEEE-754 arithmetic. -/
def rheNat (n d : Nat) : Nat :=
  let q := n / d
  let r := n % d
  if 2 * r < d then q
  else if d < 2 * r then q + 1
  else if q % 2 = 0 then q else q + 1

/-- Exact value of Python's `float(x)` on a rational `x`: the IEEE-754
binary64 number nearest to `x` (round to nearest, ties to even, gradual
underflow below `2 ^ (-1022)`), or `none` when the rounded magnitude
reaches `2 ^ 1024` and `float` raises `OverflowError`.  The exponent `e`
with `2 ^ e ≤ |x| < 2 ^ (e + 1)` is located through `natLog2` of the
numerator and the denominator, the significand is the nearest-even
rounding of `|x| * 2 ^ shift` with `shift = min (52 - e) 1074` (clamped
at `1074` to the fixed spacing of the subnormals), and the result is the
exact rational value of the rounded double. -/
def toFloat (q : ℚ) : Option ℚ :=
  if q = 0 then some 0
  else
    let n := q.num.natAbs
    let d := q.den
    let e0 : Int := (natLog2 n : Int) - (natLog2 d : Int)
    let e : Int := if d * 2 ^ e0.toNat ≤ n * 2 ^ (-e0).toNat then e0 else e0 - 1
    let shift : Int := min (52 - e) 1074
    let m := rheNat (n * 2 ^ shift.toNat) (d * 2 ^ (-shift).toNat)
    let v : ℚ := ((m * 2 ^ (-shift).toNat : Nat) : ℚ) / ((2 ^ shift.toNat : Nat) : ℚ)
    if ((2 ^ 1024 : Nat) : ℚ) ≤ v then none
    else if 0 ≤ q then some v else some (-v)

/-- Float conversions of a list of entries, left to right (the
comprehension `[float(x) for x in values]`); `none` as soon as one
conversion raises `OverflowError`. -/
def floatsOf : List ℚ → Option (List ℚ)
  | [] => some []
  | x :: xs =>
    match toFloat x with
    | none => none
    | some f =>
      match floatsOf xs with
      | none => none
      | some fs => some (f :: fs)

/-- Pivot choice of the source, `np.argmax(np.abs(values))` over the
float conversions of the scanned column: the first index of maximal
absolute converted value, or `none` when a conversion raises. -/
def argmaxAbsF (l : List ℚ) : Option Nat :=
  (floatsOf l).map argmaxAbs

namespace UsFusion

/-- Forward elimination of `UsFusion.eliminate`, operating on the rows at
and below the pivot cursor `r` (passed as the list `rest = X[r:]`); `c` is
the pivot column cursor and `fuel` the number of columns still to scan, so
the initial call is `forwardAux (numCols X) 0 X`.  At each column the pivot
row is chosen by maximal absolute value; if its entry is exactly zero the
column is skipped, otherwise the pivot row is swapped up, normalised, and
eliminated from all rows below. -/
def forwardAux : Nat → Nat → Mat → Mat
  | 0, _, rest => rest
  | _ + 1, _, [] => []
  | fuel + 1, c, rest@(_ :: _) =>
    let i := argmaxAbs (colAt c rest)
    let p := rest.getD i []
    if getQ p c = 0 then
      forwardAux fuel (c + 1) rest
    else
      let rest2 := listSwap rest i
      let pr := rowDivFrom c (getQ p c) (rest2.headD [])
      pr :: forwardAux fuel (c + 1)
        (rest2.tail.map (fun row => rowSubFrom c (getQ row c) pr row))

/-- Leading column of a row: the first index holding a nonzero entry
(the `for c in range(num_c): if X[r, c] != 0: ... break` search). -/
def leadIdx (row : List ℚ) : Option Nat :=
  row.findIdx? (fun x => decide (x ≠ 0))

/-- One backward-substitution step: eliminate the leading column of the
processed row `r0` from a row `p` lying above it. -/
def elim1 (r0 p : List ℚ) : List ℚ :=
  match leadIdx r0 with
  | some c => rowSubFrom c (getQ p c) r0 p
  | none => p

/-- Eliminate the leading column of `r0` from every row of `above`. -/
def backElim (r0 : List ℚ) (above : Mat) : Mat :=
  match leadIdx r0 with
  | some c => above.map (fun row => rowSubFrom c (getQ row c) r0 row)
  | none => above

/-- Backward substitution on the rows listed bottom-to-top: process the
bottom row, eliminate its leading column from all rows above, recurse.
The fuel argument (instantiated with the row count, which `backElim`
preserves) makes the recursion structural. -/
def backAux : Nat → Mat → Mat
  | 0, l => l
  | _ + 1, [] => []
  | fuel + 1, r0 :: above => r0 :: backAux fuel (backElim r0 above)

/-- Backward substitution of `UsFusion.eliminate`: rows are processed from
the last to the first, each eliminating its leading column from the rows
above it. -/
def backward (rows : Mat) : Mat :=
  (backAux rows.length rows.reverse).reverse

/-- `UsFusion.eliminate`: canonical reduced row echelon form by
Gauss-Jordan elimination (forward elimination with partial pivoting, then
backward substitution).  The in-place numpy update is embedded as a pure
function on the list of rows. -/
def eliminate (X : Mat) : Mat :=
  backward (forwardAux (numCols X) 0 X)

/-- Forward elimination with the pivot chosen through the float
conversion of the scanned column, as the source computes it
(`forwardAux` with `argmaxAbs` replaced by the faithful `argmaxAbsF`);
`none` propagates Python's `OverflowError`.  The zero test on the
selected entry stays exact (`X[i, c] != 0` compares `Fraction`s). -/
def forwardAuxF : Nat → Nat → Mat → Option Mat
  | 0, _, rest => some rest
  | _ + 1, _, [] => some []
  | fuel + 1, c, a :: as =>
    match argmaxAbsF (colAt c (a :: as)) with
    | none => none
    | some i =>
      let p := (a :: as).getD i []
      if getQ p c = 0 then
        forwardAuxF fuel (c + 1) (a :: as)
      else
        let rest2 := listSwap (a :: as) i
        let pr := rowDivFrom c (getQ p c) (rest2.headD [])
        (forwardAuxF fuel (c + 1)
          (rest2.tail.map (fun row => rowSubFrom c (getQ row c) pr row))).map
          (fun M => pr :: M)

/-- Safety of a forward run: at every step whose float-selected pivot
entry is exactly zero, the scanned column is exactly zero — no column
holding a nonzero entry is skipped because all of its entries underflowed
to float zero.  (When the selected entry is nonzero the exact test
`X[i, c] != 0` of the source protects the step, whichever index the
float comparison picked; a conversion failure makes the run unsafe.) -/
def forwardSafeF : Nat → Nat → Mat → Bool
  | 0, _, _ => true
  | _ + 1, _, [] => true
  | fuel + 1, c, a :: as =>
    match argmaxAbsF (colAt c (a :: as)) with
    | none => false
    | some i =>
      let p := (a :: as).getD i []
      if getQ p c = 0 then
        (colAt c (a :: as)).all (fun x => x == 0) &&
          forwardSafeF fuel (c + 1) (a :: as)
      else
        let rest2 := listSwap (a :: as) i
        let pr := rowDivFrom c (getQ p c) (rest2.headD [])
        forwardSafeF fuel (c + 1)
          (rest2.tail.map (fun row => rowSubFrom c (getQ row c) pr row))

/-- Faithful model of `UsFusion.eliminate`: Gauss-Jordan elimination with
the float-based pivot selection of the source (backward substitution uses
only exact comparisons and is shared with `eliminate`). -/
def eliminateF (X : Mat) : Option Mat :=
  (forwardAuxF (numCols X) 0 X).map backward

/-- Safety of the forward phase of `eliminateF X`. -/
def eliminateSafe (X : Mat) : Bool :=
  forwardSafeF (numCols X) 0 X

/-- Dot product `sum(u * v for (u, v) in zip(U, V))`. -/
def dot (U V : List ℚ) : ℚ :=
  (List.zipWith (fun u v => u * v) U V).sum

/-- `UsFusion.matmul` on two matrices: `None` models the
`matrix dimensions do not match` exception; the variadic form of the
source right-folds this pairwise product. -/
def matmul (A B : Mat) : Option Mat :=
  if numCols A ≠ B.length then none
  else some (A.map (fun row =>
    (List.range (numCols B)).map (fun c => dot row (colAt c B))))

/-- Sum of the absolute values of a row (`np.sum(np.abs(M), axis=1)`
at one row). -/
def rowAbsSum (row : List ℚ) : ℚ :=
  (row.map (fun x => |x|)).sum

/-- Transpose of a rectangular matrix (`M.T`). -/
def transposeM (M : Mat) : Mat :=
  (List.range (numCols M)).map (fun j => M.map (fun row => getQ row j))

/-- `fractions(np.zeros((r, c)))`: an `r × c` matrix of exact zeros. -/
def zerosMat (r c : Nat) : Mat :=
  List.replicate r (List.replicate c 0)

/-- `fractions(np.eye(n))`: the `n × n` identity matrix of exact
rationals. -/
def fractionsEye (n : Nat) : Mat :=
  (List.range n).map (fun i => (List.range n).map (fun j => if i = j then (1 : ℚ) else 0))

/-- Basis matrix `B` of `UsFusion._determine_statespace`: the reduced row
echelon form of `H0`, truncated or zero-padded to a square matrix whose
side is the number of statespace columns. -/
def dsB (H0 : Mat) : Mat :=
  let B0 := eliminate H0
  let size := numCols B0
  if B0.length < size then B0 ++ zerosMat (size - B0.length) size
  else B0.take size

/-- Rank computed by `UsFusion._determine_statespace`: the number of rows
of the reduced `H0` with a nonzero absolute sum. -/
def dsRank (H0 : Mat) : Nat :=
  (eliminate H0).countP (fun row => decide (0 < rowAbsSum row))

/-- The matrix `Bi` of `UsFusion._determine_statespace`: eliminate the
augmented matrix `[Bᵗ | I]` and transpose its right block. -/
def dsBi (H0 : Mat) : Mat :=
  let B := dsB H0
  let size := numCols (eliminate H0)
  let BtI := List.zipWith (fun x y => x ++ y) (transposeM B) (fractionsEye size)
  let IBit := eliminate BtI
  transposeM (IBit.map (List.drop size))

/-- `Bi_actual`: the leftmost `rank` columns of `Bi` (the reachable
statespace coordinates). -/
def dsBiActual (H0 : Mat) : Mat :=
  (dsBi H0).map (List.take (dsRank H0))

/-- `Bi_pseudo`: the remaining columns of `Bi` (coordinates on the
unreachable complement). -/
def dsBiPseudo (H0 : Mat) : Mat :=
  (dsBi H0).map (List.drop (dsRank H0))

/-- `W_actual = matmul(W0, Bi_actual)`. -/
def dsWactual (H0 W0 : Mat) : Option Mat :=
  matmul W0 (dsBiActual H0)

/-- `W_pseudo = matmul(W0, Bi_pseudo)`. -/
def dsWpseudo (H0 W0 : Mat) : Option Mat :=
  matmul W0 (dsBiPseudo H0)

/-- Row indices kept by `UsFusion._determine_statespace`:
`np.flatnonzero(np.sum(np.abs(W_pseudo), axis=1) == 0)`, the indices (in
increasing order) of the rows of `W_pseudo` whose absolute sum is zero. -/
def dsActualRows (Wp : Mat) : List Nat :=
  (List.range Wp.length).filter (fun i => decide (rowAbsSum (Wp.getD i []) = 0))

/-- `UsFusion._determine_statespace`: from the exact weight matrices `H0`
(inputs × statespace) and `W0` (outputs × statespace), compute the map `H`
from the reduced statespace to the inputs, the map `W` to the determined
outputs, and the list of row indices of `W0` kept in `W`.  `none` models
the (unreachable for aligned shapes) dimension-mismatch exception of
`matmul`. -/
def _determine_statespace (H0 W0 : Mat) : Option (Mat × Mat × List Nat) :=
  match matmul H0 (dsBiActual H0), dsWactual H0 W0, dsWpseudo H0 W0 with
  | some H, some W_actual, some W_pseudo =>
    let actual_rows := dsActualRows W_pseudo
    some (H, actual_rows.map (fun i => W_actual.getD i []), actual_rows)
  | _, _, _ => none

end UsFusion

/-! ### Geographic taxonomy (`locations.py`) -/

namespace Locations

/-- Atomic regions for FluView data (regions containing only themselves). -/
def atom_list : List String :=
  ["ak", "al", "ar", "az", "ca", "co", "ct", "de", "fl", "ga", "hi", "ia", "id", "il", "in", "ks", "ky", "la", "ma", "md", "me", "mi", "mn", "mo", "ms", "mt", "nc", "nd", "ne", "nh", "nj", "nm", "nv", "oh", "ok", "or", "pa", "ri", "sc", "sd", "tn", "tx", "ut", "va", "vt", "wa", "wi", "wv", "wy", "ny_minus_jfk", "dc", "pr", "vi", "jfk"]

/-- `atom_map = {a: [a] for a in atom_list}`. -/
def atom_map : List (String × List String) :=
  atom_list.map (fun a => (a, [a]))

def nat_list : List String := ["nat"]

/-- The national region is composed of every atom. -/
def nat_map : List (String × List String) := [("nat", atom_list)]

def hhs_list : List String :=
  ["hhs1", "hhs2", "hhs3", "hhs4", "hhs5", "hhs6", "hhs7", "hhs8", "hhs9", "hhs10"]

/-- The ten HHS regions in terms of atoms. -/
def hhs_map : List (String × List String) :=
  List.zip hhs_list
    [["ct", "ma", "me", "nh", "ri", "vt"],
     ["jfk", "nj", "ny_minus_jfk", "pr", "vi"],
     ["dc", "de", "md", "pa", "va", "wv"],
     ["al", "fl", "ga", "ky", "ms", "nc", "sc", "tn"],
     ["il", "in", "mi", "mn", "oh", "wi"],
     ["ar", "la", "nm", "ok", "tx"],
     ["ia", "ks", "mo", "ne"],
     ["co", "mt", "nd", "sd", "ut", "wy"],
     ["az", "ca", "hi", "nv"],
     ["ak", "id", "or", "wa"]]

def cen_list : List String :=
  ["cen1", "cen2", "cen3", "cen4", "cen5", "cen6", "cen7", "cen8", "cen9"]

/-- The nine Census divisions in terms of atoms. -/
def cen_map : List (String × List String) :=
  List.zip cen_list
    [["ct", "ma", "me", "nh", "ri", "vt"],
     ["jfk", "nj", "ny_minus_jfk", "pa", "pr", "vi"],
     ["il", "in", "mi", "oh", "wi"],
     ["ia", "ks", "mn", "mo", "nd", "ne", "sd"],
     ["dc", "de", "fl", "ga", "md", "nc", "sc", "va", "wv"],
     ["al", "ky", "ms", "tn"],
     ["ar", "la", "ok", "tx"],
     ["az", "co", "id", "mt", "nm", "nv", "ut", "wy"],
     ["ak", "ca", "hi", "or", "wa"]]

def ny_state_list : List String := ["ny"]

/-- New York state combines the `ny_minus_jfk` fragment with `jfk`. -/
def ny_state_map : List (String × List String) :=
  [("ny", ["jfk", "ny_minus_jfk"])]

/-- All known locations, in canonical order. -/
def region_list : List String :=
  nat_list ++ hhs_list ++ cen_list ++ ny_state_list ++ atom_list

/-- The dict built by successive `update`s; the key sets of the five
maps are pairwise disjoint, so association-list concatenation agrees
with the dict. -/
def region_map : List (String × List String) :=
  nat_map ++ hhs_map ++ cen_map ++ ny_state_map ++ atom_map

end Locations

/-- The year-keyed population-weight table of `populations.py`;
weights are the exact rationals denoted by the decimal literals. -/
def population_weights : List (Int × List (String × ℚ)) := [
  (2010, [
    ("ak", 0.00227518), ("al", 0.01533745), ("ar", 0.00941176),
    ("az", 0.02148400), ("ca", 0.12039274), ("co", 0.01636543),
    ("ct", 0.01146016), ("dc", 0.00195314), ("de", 0.00288299),
    ("fl", 0.06038341), ("ga", 0.03201648), ("hi", 0.00421877),
    ("ia", 0.00979696), ("id", 0.00503527), ("il", 0.04205408),
    ("in", 0.02092240), ("jfk", 0.02733469), ("ks", 0.00918118),
    ("ky", 0.01405184), ("la", 0.01463192), ("ma", 0.02147752),
    ("md", 0.01856371), ("me", 0.00429419), ("mi", 0.03247482),
    ("mn", 0.01715415), ("mo", 0.01950239), ("ms", 0.00961546),
    ("mt", 0.00317556), ("nc", 0.03055618), ("nd", 0.00210670),
    ("ne", 0.00585185), ("nh", 0.00431464), ("nj", 0.02836354),
    ("nm", 0.00654612), ("nv", 0.00860921), ("ny_minus_jfk", 0.03631738),
    ("oh", 0.03759897), ("ok", 0.01200984), ("or", 0.01246166),
    ("pa", 0.04105459), ("ri", 0.00343073), ("sc", 0.01485699),
    ("sd", 0.00264588), ("tn", 0.02050899), ("tx", 0.08072283),
    ("ut", 0.00906917), ("va", 0.02567430), ("vt", 0.00202532),
    ("wa", 0.02170791), ("wi", 0.01841977), ("wv", 0.00592713),
    ("wy", 0.00177260)
  ]),
  (2011, [
    ("ak", 0.00229505), ("al", 0.01547462), ("ar", 0.00943623),
    ("az", 0.02070624), ("ca", 0.12068005), ("co", 0.01632952),
    ("ct", 0.01153898), ("dc", 0.00195012), ("de", 0.00291042),
    ("fl", 0.06087038), ("ga", 0.03136422), ("hi", 0.00440658),
    ("ia", 0.00987440), ("id", 0.00506529), ("il", 0.04159759),
    ("in", 0.02102140), ("jfk", 0.02639945), ("ks", 0.00924801),
    ("ky", 0.01404776), ("la", 0.01467032), ("ma", 0.02113917),
    ("md", 0.01871206), ("me", 0.00428860), ("mi", 0.03204299),
    ("mn", 0.01719550), ("mo", 0.01941239), ("ms", 0.00960674),
    ("mt", 0.00321277), ("nc", 0.03087160), ("nd", 0.00218381),
    ("ne", 0.00591985), ("nh", 0.00425016), ("nj", 0.02839098),
    ("nm", 0.00666356), ("nv", 0.00874816), ("ny_minus_jfk", 0.03617721),
    ("oh", 0.03740244), ("ok", 0.01213960), ("or", 0.01237936),
    ("pa", 0.04116837), ("ri", 0.00339827), ("sc", 0.01497568),
    ("sd", 0.00264368), ("tn", 0.02054620), ("tx", 0.08137335),
    ("ut", 0.00897433), ("va", 0.02593179), ("vi", 0.00034350),
    ("vt", 0.00202018), ("wa", 0.02172891), ("wi", 0.01843688),
    ("wv", 0.00600521), ("wy", 0.00183008)
  ]),
  (2012, [
    ("ak", 0.00231819), ("al", 0.01540851), ("ar", 0.00942543),
    ("az", 0.02079732), ("ca", 0.12092341), ("co", 0.01641994),
    ("ct", 0.01148834), ("dc", 0.00198275), ("de", 0.00291038),
    ("fl", 0.06114108), ("ga", 0.03148930), ("hi", 0.00441076),
    ("ia", 0.00982549), ("id", 0.00508404), ("il", 0.04128530),
    ("in", 0.02090667), ("jfk", 0.02644989), ("ks", 0.00921252),
    ("ky", 0.01401796), ("la", 0.01467680), ("ma", 0.02113535),
    ("md", 0.01869878), ("me", 0.00426125), ("mi", 0.03168319),
    ("mn", 0.01714633), ("mo", 0.01928559), ("ms", 0.00955571),
    ("mt", 0.00320334), ("nc", 0.03098006), ("nd", 0.00219478),
    ("ne", 0.00591215), ("nh", 0.00422915), ("nj", 0.02829857),
    ("nm", 0.00668008), ("nv", 0.00873694), ("ny_minus_jfk", 0.03599504),
    ("oh", 0.03703687), ("ok", 0.01216368), ("or", 0.01241930),
    ("pa", 0.04088358), ("ri", 0.00337286), ("sc", 0.01501189),
    ("sd", 0.00264458), ("tn", 0.02054316), ("tx", 0.08236755),
    ("ut", 0.00904064), ("va", 0.02597622), ("vi", 0.00035180),
    ("vt", 0.00200973), ("wa", 0.02190810), ("wi", 0.01832391),
    ("wv", 0.00595245), ("wy", 0.00182329)
  ]),
  (2013, [
    ("ak", 0.00230241), ("al", 0.01517830), ("ar", 0.00928298),
    ("az", 0.02062798), ("ca", 0.11974465), ("co", 0.01633128),
    ("ct", 0.01130065), ("dc", 0.00199037), ("de", 0.00288681),
    ("fl", 0.06080683), ("ga", 0.03122503), ("hi", 0.00438272),
    ("ia", 0.00967646), ("id", 0.00502290), ("il", 0.04052832),
    ("in", 0.02057813), ("jfk", 0.02624223), ("ks", 0.00908388),
    ("ky", 0.01378813), ("la", 0.01448562), ("ma", 0.02091874),
    ("md", 0.01852285), ("me", 0.00418369), ("mi", 0.03111046),
    ("mn", 0.01693229), ("mo", 0.01895510), ("ms", 0.00939586),
    ("mt", 0.00316437), ("nc", 0.03069718), ("nd", 0.00220253),
    ("ne", 0.00584064), ("nh", 0.00415701), ("nj", 0.02790382),
    ("nm", 0.00656480), ("nv", 0.00868439), ("ny_minus_jfk", 0.03536077),
    ("oh", 0.03633856), ("ok", 0.01200804), ("or", 0.01227398),
    ("pa", 0.04017603), ("pr", 0.01154317), ("ri", 0.00330567),
    ("sc", 0.01486956), ("sd", 0.00262349), ("tn", 0.02032259),
    ("tx", 0.08202735), ("ut", 0.00898886), ("va", 0.02576680),
    ("vi", 0.00033496), ("vt", 0.00197035), ("wa", 0.02170973),
    ("wi", 0.01802582), ("wv", 0.00584026), ("wy", 0.00181457)
  ]),
  (2014, [
    ("ak", 0.00229826), ("al", 0.01511231), ("ar", 0.00925232),
    ("az", 0.02071714), ("ca", 0.11984244), ("co", 0.01647139),
    ("ct", 0.01124367), ("dc", 0.00202117), ("de", 0.00289444),
    ("fl", 0.06113065), ("ga", 0.03123955), ("hi", 0.00438962),
    ("ia", 0.00966159), ("id", 0.00504010), ("il", 0.04027598),
    ("in", 0.02054438), ("jfk", 0.02628095), ("ks", 0.00904742),
    ("ky", 0.01374139), ("la", 0.01446115), ("ma", 0.02092603),
    ("md", 0.01853664), ("me", 0.00415316), ("mi", 0.03093930),
    ("mn", 0.01694700), ("mo", 0.01889603), ("ms", 0.00935160),
    ("mt", 0.00317376), ("nc", 0.03078912), ("nd", 0.00226162),
    ("ne", 0.00584164), ("nh", 0.00413793), ("nj", 0.02782429),
    ("nm", 0.00651961), ("nv", 0.00872335), ("ny_minus_jfk", 0.03515874),
    ("oh", 0.03617563), ("ok", 0.01203859), ("or", 0.01228678),
    ("pa", 0.03993758), ("pr", 0.01130270), ("ri", 0.00328770),
    ("sc", 0.01492810), ("sd", 0.00264159), ("tn", 0.02030914),
    ("tx", 0.08268967), ("ut", 0.00906940), ("va", 0.02582641),
    ("vi", 0.00033273), ("vt", 0.00195921), ("wa", 0.02179514),
    ("wi", 0.01795467), ("wv", 0.00579754), ("wy", 0.00182168)
  ]),
  (2015, [
    ("ak", 0.00222549), ("al", 0.01465046), ("ar", 0.00896152),
    ("az", 0.02033757), ("ca", 0.11723059), ("co", 0.01617926),
    ("ct", 0.01086707), ("dc", 0.00199051), ("de", 0.00282642),
    ("fl", 0.06009969), ("ga", 0.03050535), ("hi", 0.00428888),
    ("ia", 0.00938773), ("id", 0.00493738), ("il", 0.03891432),
    ("in", 0.01993020), ("jfk", 0.02565219), ("ks", 0.00877424),
    ("ky", 0.01333317), ("la", 0.01404697), ("ma", 0.02038083),
    ("md", 0.01805455), ("me", 0.00401881), ("mi", 0.02993998),
    ("mn", 0.01648714), ("mo", 0.01832052), ("ms", 0.00904533),
    ("mt", 0.00309194), ("nc", 0.03004141), ("nd", 0.00223386),
    ("ne", 0.00568488), ("nh", 0.00400892), ("nj", 0.02700323),
    ("nm", 0.00630083), ("nv", 0.00857763), ("ny_minus_jfk", 0.05965562),
    ("oh", 0.03502746), ("ok", 0.01171597), ("or", 0.01199323),
    ("pa", 0.03862992), ("pr", 0.01072014), ("ri", 0.00318804),
    ("sc", 0.01459964), ("sd", 0.00257716), ("tn", 0.01978616),
    ("tx", 0.08143924), ("ut", 0.00888997), ("va", 0.02515309),
    ("vi", 0.00032150), ("vt", 0.00189317), ("wa", 0.02133134),
    ("wi", 0.01739496), ("wv", 0.00558998), ("wy", 0.00176455)
  ]),
  (2016, [
    ("ak", 0.00227206), ("al", 0.01495049), ("ar", 0.00916311),
    ("az", 0.02100899), ("ca", 0.12044360), ("co", 0.01679052),
    ("ct", 0.01104830), ("dc", 0.00206836), ("de", 0.00291047),
    ("fl", 0.06237330), ("ga", 0.03143072), ("hi", 0.00440484),
    ("ia", 0.00961212), ("id", 0.00509207), ("il", 0.03957187),
    ("in", 0.02036971), ("jfk", 0.02630960), ("ks", 0.00895905),
    ("ky", 0.01361560), ("la", 0.01437120), ("ma", 0.02090476),
    ("md", 0.01848052), ("me", 0.00409015), ("mi", 0.03053260),
    ("mn", 0.01689232), ("mo", 0.01871922), ("ms", 0.00920701),
    ("mt", 0.00317852), ("nc", 0.03090132), ("nd", 0.00232914),
    ("ne", 0.00583455), ("nh", 0.00409392), ("nj", 0.02756388),
    ("nm", 0.00641636), ("nv", 0.00889466), ("ny_minus_jfk", 0.03460203),
    ("oh", 0.03573599), ("ok", 0.01203489), ("or", 0.01239663),
    ("pa", 0.03939073), ("pr", 0.01069004), ("ri", 0.00324996),
    ("sc", 0.01506526), ("sd", 0.00264163), ("tn", 0.02030874),
    ("tx", 0.08452051), ("ut", 0.00921879), ("va", 0.02579260),
    ("vi", 0.00032227), ("vt", 0.00192612), ("wa", 0.02206222),
    ("wi", 0.01775927), ("wv", 0.00567395), ("wy", 0.00180349)
  ]),
  (2017, [
    ("ak", 0.00226985), ("al", 0.01488923), ("ar", 0.00914813),
    ("az", 0.02121906), ("ca", 0.12016114), ("co", 0.01697014),
    ("ct", 0.01094766), ("dc", 0.00208648), ("de", 0.00291668),
    ("fl", 0.06310502), ("ga", 0.03156409), ("hi", 0.00437360),
    ("ia", 0.00959975), ("id", 0.00514951), ("il", 0.03919113),
    ("in", 0.02030593), ("jfk", 0.02613827), ("ks", 0.00890329),
    ("ky", 0.01358380), ("la", 0.01433368), ("ma", 0.02085150),
    ("md", 0.01842029), ("me", 0.00407546), ("mi", 0.03039408),
    ("mn", 0.01689905), ("mo", 0.01865930), ("ms", 0.00914998),
    ("mt", 0.00319311), ("nc", 0.03106493), ("nd", 0.00232165),
    ("ne", 0.00584048), ("nh", 0.00408617), ("nj", 0.02738362),
    ("nm", 0.00637229), ("nv", 0.00900122), ("ny_minus_jfk", 0.03431267),
    ("oh", 0.03555613), ("ok", 0.01200884), ("or", 0.01252378),
    ("pa", 0.03913594), ("pr", 0.01044379), ("ri", 0.00323374),
    ("sc", 0.01518871), ("sd", 0.00265086), ("tn", 0.02036199),
    ("tx", 0.08529818), ("ut", 0.00934570), ("va", 0.02575484),
    ("vi", 0.00031504), ("vt", 0.00191183), ("wa", 0.02229756),
    ("wi", 0.01769118), ("wv", 0.00560636), ("wy", 0.00179330)
  ])
]

/-- `min(population_weights)` over the year keys. -/
def first_season : Int :=
  ((population_weights.map Prod.fst).min?).getD 0

/-- `max(population_weights)` over the year keys. -/
def last_season : Int :=
  ((population_weights.map Prod.fst).max?).getD 0

/-- `population_weights[season][location]`: the two dict lookups; `none`
models the Python `KeyError` on a missing year or location (the years
2010-2012 lack an entry for `pr`, and 2010 also lacks `vi`). -/
def lookupWeight (season : Int) (location : String) : Option ℚ :=
  match population_weights.lookup season with
  | none => none
  | some tbl => tbl.lookup location

/-- `get_population_weight`: clamp the season into the table's year range,
then look the location up in that year's table. -/
def get_population_weight (location : String) (season : Int) : Option ℚ :=
  lookupWeight (max (min season last_season) first_season) location

/-- Python `round`: round half to even, on the exact rational value. -/
def pyRound (q : ℚ) : Int :=
  if q - (⌊q⌋ : ℚ) < 1 / 2 then ⌊q⌋
  else if 1 / 2 < q - (⌊q⌋ : ℚ) then ⌊q⌋ + 1
  else if ⌊q⌋ % 2 = 0 then ⌊q⌋ else ⌊q⌋ + 1

/-- `get_population`: `round(get_population_weight(location, season) * 3.25e8)`,
the `round` of the float product modelled as `pyRound` of the exact
rational product. -/
def get_population (location : String) (season : Int) : Option Int :=
  (get_population_weight location season).map (fun w => pyRound (w * 325000000))

/-! ### Weight rows and the statespace query (`us_fusion.py`) -/

/-- The exceptions of the statespace-determination pipeline:
`overlap` is `'input contains excluded locations'`, `noPopulation loc` is
`('location has no constituent atoms', location)`, `keyError key` is a
Python `KeyError` (unknown location in the taxonomy, or a missing
population-weight entry), and `dimensionMismatch` is
`'matrix dimensions do not match'`. -/
inductive FusionError : Type
  | overlap : FusionError
  | noPopulation : String → FusionError
  | keyError : String → FusionError
  | dimensionMismatch : FusionError
deriving DecidableEq, Repr

deriving instance DecidableEq for Except

/-- Python truthiness of the optional `season` argument (`if season:`):
`None` and `0` are falsy, every other integer is truthy. -/
def seasonTruthy : Option Int → Bool
  | none => false
  | some s => decide (s ≠ 0)

/-- The year whose population weights `get_weight_row` consults (before
clamping): the given season when truthy, else the most recent year. -/
def effYear (season : Option Int) : Int :=
  if seasonTruthy season then season.getD 0 else last_season

namespace UsFusion

/-- `UsFusion.get_weight_row`: the population weights of all atoms with
respect to `location`; atoms outside the location weigh zero and the
returned exact fractions sum to one.  Errors are raised for an unknown
location, a missing population entry, and a zero total population. -/
def get_weight_row (location : String) (season : Option Int)
    (atoms : List String) : Except FusionError (List ℚ) :=
  match Locations.region_map.lookup location with
  | none => .error (.keyError location)
  | some members =>
    match atoms.mapM (fun atom =>
      if atom ∈ members then
        match (if seasonTruthy season then get_population atom (season.getD 0)
               else get_population atom last_season) with
        | none => Except.error (FusionError.keyError atom)
        | some population => Except.ok population
      else Except.ok 0) with
    | .error e => .error e
    | .ok atom_populations =>
      if atom_populations.sum = 0 then .error (.noPopulation location)
      else .ok (atom_populations.map (fun (pop : Int) =>
        (pop : ℚ) / ((atom_populations.sum : Int) : ℚ)))

/-- Year-indexed variant of `get_weight_row` (the row computed against a
fixed season argument to `get_population`), used to state which year's
weights the optional-season front end consults. -/
def get_weight_row_year (location : String) (year : Int)
    (atoms : List String) : Except FusionError (List ℚ) :=
  match Locations.region_map.lookup location with
  | none => .error (.keyError location)
  | some members =>
    match atoms.mapM (fun atom =>
      if atom ∈ members then
        match get_population atom year with
        | none => Except.error (FusionError.keyError atom)
        | some population => Except.ok population
      else Except.ok 0) with
    | .error e => .error e
    | .ok atom_populations =>
      if atom_populations.sum = 0 then .error (.noPopulation location)
      else .ok (atom_populations.map (fun (pop : Int) =>
        (pop : ℚ) / ((atom_populations.sum : Int) : ℚ)))

/-- `UsFusion.get_weight_matrix`: stack the weight rows of the given
locations (errors propagate from the first failing row). -/
def get_weight_matrix (locations : List String) (season : Option Int)
    (atoms : List String) : Except FusionError Mat :=
  locations.mapM (fun loc => get_weight_row loc season atoms)

/-- The filter `lambda a: a not in exclude_locations` of
`determine_statespace`. -/
def atomFilter (exclude_locations : List String) (a : String) : Bool :=
  !(exclude_locations.contains a)

/-- `all_locations`: every known location whose own identifier is not
excluded, in canonical order. -/
def allLocationsOf (exclude_locations : List String) : List String :=
  Locations.region_list.filter (atomFilter exclude_locations)

/-- `atoms`: every atomic location whose identifier is not excluded. -/
def atomsOf (exclude_locations : List String) : List String :=
  Locations.atom_list.filter (atomFilter exclude_locations)

/-- `UsFusion.determine_statespace` (uncached body): check the inputs do
not overlap the exclusions, build `H0` and `W0`, take the fast path when
the inputs cover every atom, otherwise reduce via
`_determine_statespace`.  The final `astype(np.float)` boundary cast is
modelled as the identity on exact rationals. -/
def determine_statespace (input_locations : List String)
    (season : Option Int) (exclude_locations : List String) :
    Except FusionError (Mat × Mat × List String) :=
  if exclude_locations.any (fun a => input_locations.contains a) then
    .error .overlap
  else
    match get_weight_matrix input_locations season (atomsOf exclude_locations) with
    | .error e => .error e
    | .ok H0 =>
      match get_weight_matrix (allLocationsOf exclude_locations) season
          (atomsOf exclude_locations) with
      | .error e => .error e
      | .ok W0 =>
        if (atomsOf exclude_locations).all
            (fun a => input_locations.contains a) then
          .ok (H0, W0, allLocationsOf exclude_locations)
        else
          match _determine_statespace H0 W0 with
          | none => .error .dimensionMismatch
          | some (H, W, selected_rows) =>
            .ok (H, W, selected_rows.map (fun i =>
              (allLocationsOf exclude_locations).getD i ""))

/-- Key of the memoisation cache:
`(input_locations, season, exclude_locations)`. -/
abbrev DsKey : Type := List String × Option Int × List String

/-- Value stored in the memoisation cache. -/
abbrev DsVal : Type := Mat × Mat × List String

/- Assembled here because the nested-product instance exceeds the default
instance-search size. -/
instance : DecidableEq (DsKey × DsVal) := instDecidableEqProd

/-- Model of `functools.lru_cache(maxsize=16)` wrapped around
`determine_statespace`: the state lists cached entries most recent first;
a hit returns the stored value, moves its entry to the front and does not
re-invoke the function; a miss invokes the function and caches the result
only on success (a raised exception is never cached), evicting entries
beyond the 16 most recently used.  The boolean records whether the call
was served from the cache. -/
def determine_statespace_cached (st : List (DsKey × DsVal))
    (input_locations : List String) (season : Option Int)
    (exclude_locations : List String) :
    Except FusionError DsVal × List (DsKey × DsVal) × Bool :=
  match st.find? (fun e =>
      decide (e.1 = (input_locations, season, exclude_locations))) with
  | some e =>
    (.ok e.2, ((input_locations, season, exclude_locations), e.2) ::
      st.filter (fun e2 =>
        !decide (e2.1 = (input_locations, season, exclude_locations))), true)
  | none =>
    match determine_statespace input_locations season exclude_locations with
    | .error err => (.error err, st, false)
    | .ok v =>
      (.ok v, (((input_locations, season, exclude_locations), v) :: st).take 16,
        false)

/-- Run a sequence of cached queries from a given cache state, returning
the final cache state. -/
def runCallsFrom (st : List (DsKey × DsVal)) (ks : List DsKey) :
    List (DsKey × DsVal) :=
  ks.foldl (fun st k => (determine_statespace_cached st k.1 k.2.1 k.2.2).2.1) st

/-- Run a sequence of cached queries from the empty cache, returning the
final cache state. -/
def runCalls (ks : List DsKey) : List (DsKey × DsVal) :=
  runCallsFrom [] ks

end UsFusion

/-- Exclusion list keeping only the national group and the two atoms `ak`
and `al`: a small concrete statespace used to exercise the query layer. -/
def exclAllButNatAkAl : List String :=
  Locations.region_list.filter (fun g => !(["nat", "ak", "al"].contains g))

/-- Seventeen distinct cache keys (differing in the season) over the small
concrete statespace, enough to overflow a 16-entry cache. -/
def c4Keys : List UsFusion.DsKey :=
  (List.range 17).map (fun i => (["ak", "al"], some ((i : Int) + 1), exclAllButNatAkAl))

/-! ### Echelon structure predicates and backward-substitution helpers -/

/-- Row echelon structure with all pivot columns at least `c`: pivot rows
with strictly increasing pivot columns (each a leading 1, zero below and
to its left in every later row), followed by all-zero rows.  `ps` lists
the pivot columns. -/
inductive PEch : Nat → Mat → List Nat → Prop
  | zrows (c : Nat) (rows : Mat) (hz : ∀ r ∈ rows, ∀ j, getQ r j = 0) :
      PEch c rows []
  | step (c pc : Nat) (p : List ℚ) (rows : Mat) (ps : List Nat)
      (hc : c ≤ pc) (hp1 : getQ p pc = 1) (hp0 : ∀ j < pc, getQ p j = 0)
      (hrows : ∀ r ∈ rows, ∀ j ≤ pc, getQ r j = 0)
      (htail : PEch (pc + 1) rows ps) : PEch c (p :: rows) (pc :: ps)

/-- Reduced row echelon structure: as `PEch`, plus every pivot row is zero
at the pivot columns of all later rows (so each pivot column is zero in
every other row of the matrix). -/
inductive PRref : Nat → Mat → List Nat → Prop
  | zrows (c : Nat) (rows : Mat) (hz : ∀ r ∈ rows, ∀ j, getQ r j = 0) :
      PRref c rows []
  | step (c pc : Nat) (p : List ℚ) (rows : Mat) (ps : List Nat)
      (hc : c ≤ pc) (hp1 : getQ p pc = 1) (hp0 : ∀ j < pc, getQ p j = 0)
      (hps : ∀ j ∈ ps, getQ p j = 0)
      (hrows : ∀ r ∈ rows, ∀ j ≤ pc, getQ r j = 0)
      (htail : PRref (pc + 1) rows ps) : PRref c (p :: rows) (pc :: ps)

/-- The final value of a row lying above a block `l` of rows processed by
backward substitution (rows of `l` listed bottom-to-top): every processed
row eliminates its leading column from the tracked row in turn. -/
def backAuxP : Nat → Mat → List ℚ → List ℚ
  | 0, _, p => p
  | _ + 1, [], p => p
  | fuel + 1, r0 :: l, p => backAuxP fuel (UsFusion.backElim r0 l) (UsFusion.elim1 r0 p)

/-- The accumulated effect on a row `p` of eliminating, bottom-to-top, the
leading columns of the already-processed rows `T` (listed top-to-bottom). -/
def hitRow (T : Mat) (p : List ℚ) : List ℚ :=
  T.reverse.foldl (fun q t => UsFusion.elim1 t q) p

/-- The input weight matrix of the concrete scenario: one input group
`{a,b}` over atoms `a, b, c` of equal population weight. -/
def scenH0 : Mat := [[1/2, 1/2, 0]]

/-- The output weight matrix of the concrete scenario: candidate outputs
`{a}`, `{b}`, `{c}`, `{a,b,c}` over the same three atoms. -/
def scenW0 : Mat := [[1, 0, 0], [0, 1, 0], [0, 0, 1], [1/3, 1/3, 1/3]]

/-- A positive rational below the IEEE-754 binary64 subnormal range:
`float` of it underflows to `0.0` (`toFloat tinyQ = some 0`). -/
def tinyQ : ℚ := 1 / 10 ^ 400

/-- Matrix on which the float-based pivot scan of column 0 sees the
converted column `[0.0, 0.0]` and skips the column although the exact
entry `tinyQ` is nonzero. -/
def uflowX2 : Mat := [[0, 1], [tinyQ, 0]]

/-- Matrix whose elimination keeps the tiny entry at position `(2, 1)` as
a nonzero non-pivot entry: the scan of column 1 sees only float zeros. -/
def uflowX3 : Mat := [[1, 1, 0], [0, 0, 1], [0, tinyQ, 0]]

/-- Result of one application of the float-based elimination to
`uflowX3`: the backward pass subtracted `tinyQ` from the entry `(0, 1)`. -/
def uflowX3a : Mat := [[1, 1 - tinyQ, 0], [0, 0, 1], [0, tinyQ, 0]]

/-- Result of a second application: the backward pass rescales the entry
`(0, 1)` once more. -/
def uflowX3b : Mat := [[1, (1 - tinyQ) ^ 2, 0], [0, 0, 1], [0, tinyQ, 0]]


/-! ### Basic lemmas about rows and entries -/


theorem getQ_nil (j : Nat) : getQ [] j = 0 := rfl

theorem getQ_le_iff_getD (l : List ℚ) (j : Nat) : getQ l j = l.getD j 0 := rfl

theorem getQ_getElem (l : List ℚ) (j : Nat) (h : j < l.length) :
    getQ l j = l[j] := by
  simp [getQ, List.getD_eq_getElem?_getD, List.getElem?_eq_getElem h]

theorem getDq_mem {α : Type} (l : List α) (i : Nat) (d : α) (h : i < l.length) :
    l.getD i d ∈ l := by
  rw [List.getD_eq_getElem?_getD, List.getElem?_eq_getElem h]
  exact List.getElem_mem h

theorem getQ_of_mem_imp {l : Mat} {row : List ℚ} (h : row ∈ l) :
    ∃ i, i < l.length ∧ l.getD i [] = row := by
  obtain ⟨i, hi, hgi⟩ := List.getElem_of_mem h
  exact ⟨i, hi, by simp [List.getD_eq_getElem?_getD, List.getElem?_eq_getElem hi, hgi]⟩

theorem getQ_cons_zero (x : ℚ) (xs : List ℚ) : getQ (x :: xs) 0 = x := rfl

theorem getQ_cons_succ (x : ℚ) (xs : List ℚ) (j : Nat) :
    getQ (x :: xs) (j + 1) = getQ xs j := rfl

theorem rowExt {r s : List ℚ} (hlen : r.length = s.length)
    (h : ∀ j, getQ r j = getQ s j) : r = s := by
  induction r generalizing s with
  | nil => cases s with
    | nil => rfl
    | cons y ys => simp at hlen
  | cons x xs ih =>
    cases s with
    | nil => simp at hlen
    | cons y ys =>
      have h0 := h 0
      simp only [getQ_cons_zero] at h0
      have : xs = ys := ih (by simpa using hlen) (fun j => h (j + 1))
      rw [h0, this]

theorem getQ_eq_zero_of_len_le {l : List ℚ} {j : Nat} (h : l.length ≤ j) :
    getQ l j = 0 := by
  simp [getQ, List.getD_eq_getElem?_getD, List.getElem?_eq_none h]

/-! ### Pointwise characterisation of the row operations -/

theorem length_mapFrom (c : Nat) (f : ℚ → ℚ) (l : List ℚ) :
    (mapFrom c f l).length = l.length := by
  induction c generalizing l with
  | zero => simp [mapFrom]
  | succ c ih =>
    cases l with
    | nil => simp [mapFrom]
    | cons x xs => simp [mapFrom, ih]

theorem length_zipFrom (c : Nat) (f : ℚ → ℚ → ℚ) (r p : List ℚ)
    (h : r.length = p.length) : (zipFrom c f r p).length = r.length := by
  induction c generalizing r p with
  | zero => simp [zipFrom, h]
  | succ c ih =>
    cases r with
    | nil => simp [zipFrom]
    | cons x xs =>
      cases p with
      | nil => simp at h
      | cons y ys =>
        simp only [zipFrom, List.tail_cons, List.length_cons]
        rw [ih xs ys (by simpa using h)]

theorem getQ_rowDivFrom (c : Nat) (v : ℚ) (row : List ℚ) (j : Nat) :
    getQ (rowDivFrom c v row) j = if j < c then getQ row j else getQ row j / v := by
  induction c generalizing row j with
  | zero =>
    simp only [rowDivFrom, mapFrom, Nat.not_lt_zero, if_false]
    induction row generalizing j with
    | nil => simp [getQ_nil]
    | cons x xs ih =>
      cases j with
      | zero => simp [getQ_cons_zero]
      | succ k => simpa [getQ_cons_succ] using ih k
  | succ c ih =>
    cases row with
    | nil =>
      simp only [rowDivFrom, mapFrom, getQ_nil]
      split <;> simp
    | cons x xs =>
      cases j with
      | zero => simp [rowDivFrom, mapFrom, getQ_cons_zero]
      | succ k =>
        simp only [rowDivFrom, mapFrom, getQ_cons_succ]
        rw [show mapFrom c (fun x => x / v) xs = rowDivFrom c v xs from rfl, ih]
        simp [Nat.succ_lt_succ_iff]

theorem length_rowDivFrom (c : Nat) (v : ℚ) (row : List ℚ) :
    (rowDivFrom c v row).length = row.length :=
  length_mapFrom c _ row

theorem getQ_rowSubFrom (c : Nat) (k : ℚ) (p row : List ℚ)
    (hlen : row.length = p.length) (j : Nat) :
    getQ (rowSubFrom c k p row) j =
      if j < c then getQ row j else getQ row j - k * getQ p j := by
  induction c generalizing row p j with
  | zero =>
    simp only [rowSubFrom, zipFrom, Nat.not_lt_zero, if_false]
    induction row generalizing p j with
    | nil =>
      cases p with
      | nil => simp [getQ_nil]
      | cons y ys => simp at hlen
    | cons x xs ih =>
      cases p with
      | nil => simp at hlen
      | cons y ys =>
        cases j with
        | zero => simp [getQ_cons_zero]
        | succ m =>
          simpa [getQ_cons_succ] using ih ys (by simpa using hlen) m
  | succ c ih =>
    cases row with
    | nil =>
      cases p with
      | nil => simp only [rowSubFrom, zipFrom, getQ_nil]; split <;> simp
      | cons y ys => simp at hlen
    | cons x xs =>
      cases p with
      | nil => simp at hlen
      | cons y ys =>
        cases j with
        | zero => simp [rowSubFrom, zipFrom, getQ_cons_zero]
        | succ m =>
          simp only [rowSubFrom, zipFrom, List.tail_cons, getQ_cons_succ]
          rw [show zipFrom c (fun x y => x - k * y) xs ys =
            rowSubFrom c k ys xs from rfl, ih ys xs (by simpa using hlen)]
          simp [Nat.succ_lt_succ_iff]

theorem length_rowSubFrom (c : Nat) (k : ℚ) (p row : List ℚ)
    (hlen : row.length = p.length) :
    (rowSubFrom c k p row).length = row.length :=
  length_zipFrom c _ row p hlen

theorem rowSubFrom_zero_coeff (c : Nat) (p row : List ℚ)
    (hlen : row.length = p.length) : rowSubFrom c 0 p row = row := by
  refine rowExt (length_rowSubFrom c 0 p row hlen) (fun j => ?_)
  rw [getQ_rowSubFrom c 0 p row hlen j]
  split <;> simp

theorem rowDivFrom_one (c : Nat) (row : List ℚ) : rowDivFrom c 1 row = row := by
  refine rowExt (length_rowDivFrom c 1 row) (fun j => ?_)
  rw [getQ_rowDivFrom c 1 row j]
  split <;> simp

/-! ### Pivot selection -/

theorem argmaxAbs_lt_length {l : List ℚ} (h : l ≠ []) : argmaxAbs l < l.length := by
  induction l with
  | nil => exact absurd rfl h
  | cons x xs ih =>
    by_cases hxs : xs = []
    · subst hxs
      simp [argmaxAbs, getQ_nil]
    · simp only [argmaxAbs]
      split
      · exact Nat.succ_lt_succ (ih hxs)
      · simp

theorem abs_getQ_argmaxAbs_ge (l : List ℚ) (j : Nat) :
    |getQ l j| ≤ |getQ l (argmaxAbs l)| := by
  induction l generalizing j with
  | nil => simp [getQ_nil]
  | cons x xs ih =>
    simp only [argmaxAbs]
    split
    · next hlt =>
      cases j with
      | zero =>
        rw [getQ_cons_zero, getQ_cons_succ]
        exact le_of_lt hlt
      | succ m =>
        rw [getQ_cons_succ, getQ_cons_succ]
        exact ih m
    · next hge =>
      rw [not_lt] at hge
      cases j with
      | zero => simp [getQ_cons_zero]
      | succ m =>
        rw [getQ_cons_succ, getQ_cons_zero]
        exact le_trans (ih m) hge

/-! ### Row swapping -/

theorem length_listSwap (l : Mat) (i : Nat) : (listSwap l i).length = l.length := by
  simp [listSwap]

theorem listSwap_zero (l : Mat) : listSwap l 0 = l := by
  cases l with
  | nil => rfl
  | cons x xs => simp [listSwap]

theorem listSwap_headD {l : Mat} {i : Nat} (h : i < l.length) :
    (listSwap l i).headD [] = l.getD i [] := by
  cases l with
  | nil => simp at h
  | cons x xs =>
    cases i with
    | zero => simp [listSwap]
    | succ m =>
      simp only [listSwap, List.getD_cons_succ, List.getD_cons_zero]
      rfl

theorem mem_listSwap {l : Mat} {i : Nat} {r : List ℚ} (hi : i < l.length)
    (h : r ∈ listSwap l i) : r ∈ l := by
  have h0 : 0 < l.length := Nat.lt_of_le_of_lt (Nat.zero_le i) hi
  rcases List.mem_or_eq_of_mem_set h with h1 | rfl
  · rcases List.mem_or_eq_of_mem_set h1 with h2 | rfl
    · exact h2
    · exact getDq_mem l i [] hi
  · exact getDq_mem l 0 [] h0

theorem listSwap_tail_mem {l : Mat} {i : Nat} {r : List ℚ} (hi : i < l.length)
    (h : r ∈ (listSwap l i).tail) : r ∈ l :=
  mem_listSwap hi (List.mem_of_mem_tail h)

/-! ### Columns -/

theorem length_colAt (c : Nat) (rest : Mat) : (colAt c rest).length = rest.length := by
  simp [colAt]

theorem getQ_colAt {c : Nat} {rest : Mat} {j : Nat} (h : j < rest.length) :
    getQ (colAt c rest) j = getQ (rest.getD j []) c := by
  rw [getQ_getElem _ _ (by simpa [colAt] using h)]
  simp only [colAt, List.getElem_map]
  congr 1
  simp [List.getD_eq_getElem?_getD, List.getElem?_eq_getElem h]

/-- If the entry selected by partial pivoting is exactly zero, the whole
column (over the remaining rows) is zero. -/
theorem colAt_all_zero {c : Nat} {rest : Mat}
    (h : getQ (rest.getD (argmaxAbs (colAt c rest)) []) c = 0) :
    ∀ row ∈ rest, getQ row c = 0 := by
  intro row hrow
  obtain ⟨j, hj, hrj⟩ := getQ_of_mem_imp hrow
  have hle := abs_getQ_argmaxAbs_ge (colAt c rest) j
  have hz : |getQ (colAt c rest) (argmaxAbs (colAt c rest))| = 0 := by
    rcases Nat.lt_or_ge (argmaxAbs (colAt c rest)) rest.length with ha | ha
    · rw [getQ_colAt ha, h, abs_zero]
    · rw [getQ_eq_zero_of_len_le (by simpa [length_colAt] using ha), abs_zero]
  rw [hz, getQ_colAt hj, hrj] at hle
  exact abs_nonpos_iff.mp hle

/-! ### Echelon structure predicates -/

theorem PEch_zeroCols {c : Nat} {M : Mat} {ps : List Nat} (h : PEch c M ps) :
    ∀ r ∈ M, ∀ j < c, getQ r j = 0 := by
  cases h with
  | zrows c rows hz => exact fun r hr j _ => hz r hr j
  | step c pc p rows ps hc hp1 hp0 hrows htail =>
    intro r hr j hj
    rcases List.mem_cons.mp hr with rfl | hr2
    · exact hp0 j (lt_of_lt_of_le hj hc)
    · exact hrows r hr2 j (le_trans (le_of_lt hj) hc)

theorem PRref_zeroCols {c : Nat} {M : Mat} {ps : List Nat} (h : PRref c M ps) :
    ∀ r ∈ M, ∀ j < c, getQ r j = 0 := by
  cases h with
  | zrows c rows hz => exact fun r hr j _ => hz r hr j
  | step c pc p rows ps hc hp1 hp0 hps hrows htail =>
    intro r hr j hj
    rcases List.mem_cons.mp hr with rfl | hr2
    · exact hp0 j (lt_of_lt_of_le hj hc)
    · exact hrows r hr2 j (le_trans (le_of_lt hj) hc)

theorem PEch_mono {c c' : Nat} {M : Mat} {ps : List Nat} (hcc : c ≤ c')
    (h : PEch c' M ps) : PEch c M ps := by
  revert hcc
  cases h with
  | zrows cc rows hz =>
    intro _
    exact PEch.zrows c M (by assumption)
  | step cc pc p rows ps hc hp1 hp0 hrows htail =>
    exact fun hcc => PEch.step c pc p rows ps (le_trans hcc hc) hp1 hp0 hrows htail

theorem PRref_mono {c c' : Nat} {M : Mat} {ps : List Nat} (hcc : c ≤ c')
    (h : PRref c' M ps) : PRref c M ps := by
  revert hcc
  cases h with
  | zrows cc rows hz =>
    intro _
    exact PRref.zrows c M (by assumption)
  | step cc pc p rows ps hc hp1 hp0 hps hrows htail =>
    exact fun hcc =>
      PRref.step c pc p rows ps (le_trans hcc hc) hp1 hp0 hps hrows htail

theorem PRref_pivots_ge {c : Nat} {M : Mat} {ps : List Nat} (h : PRref c M ps) :
    ∀ j ∈ ps, c ≤ j := by
  induction h with
  | zrows c rows hz => simp
  | step c pc p rows ps hc hp1 hp0 hps hrows htail ih =>
    intro j hj
    rcases List.mem_cons.mp hj with rfl | hj2
    · exact hc
    · exact le_trans (le_trans hc (Nat.le_succ pc)) (ih j hj2)

/-! ### Forward elimination produces echelon structure -/

theorem forwardAux_succ_cons (fuel c : Nat) (a : List ℚ) (as : Mat) :
    UsFusion.forwardAux (fuel + 1) c (a :: as) =
      (let rest := a :: as
       let i := argmaxAbs (colAt c rest)
       let p := rest.getD i []
       if getQ p c = 0 then UsFusion.forwardAux fuel (c + 1) rest
       else
         let rest2 := listSwap rest i
         let pr := rowDivFrom c (getQ p c) (rest2.headD [])
         pr :: UsFusion.forwardAux fuel (c + 1)
           (rest2.tail.map (fun row => rowSubFrom c (getQ row c) pr row))) := rfl

theorem forwardAux_spec (fuel : Nat) :
    ∀ (c : Nat) (rest : Mat) (n : Nat),
      (∀ r ∈ rest, r.length = n) →
      (∀ r ∈ rest, ∀ j < c, getQ r j = 0) →
      n ≤ c + fuel →
      (∃ ps, PEch c (UsFusion.forwardAux fuel c rest) ps) ∧
        ∀ r ∈ UsFusion.forwardAux fuel c rest, r.length = n := by
  induction fuel with
  | zero =>
    intro c rest n hlen hz hn
    have hz' : ∀ r ∈ rest, ∀ j, getQ r j = 0 := by
      intro r hr j
      rcases Nat.lt_or_ge j c with hj | hj
      · exact hz r hr j hj
      · exact getQ_eq_zero_of_len_le (by rw [hlen r hr]; omega)
    exact ⟨⟨[], PEch.zrows c rest hz'⟩, hlen⟩
  | succ fuel ih =>
    intro c rest n hlen hz hn
    cases rest with
    | nil =>
      have he : UsFusion.forwardAux (fuel + 1) c [] = [] := rfl
      rw [he]
      exact ⟨⟨[], PEch.zrows c [] (by simp)⟩, by simp⟩
    | cons a as =>
      rw [forwardAux_succ_cons]
      set rest := a :: as with hrest
      set i := argmaxAbs (colAt c rest) with hidef
      set p := rest.getD i [] with hpdef
      have hi : i < rest.length := by
        rw [hidef, ← length_colAt c rest]
        exact argmaxAbs_lt_length (by simp [colAt, hrest])
      have hpmem : p ∈ rest := getDq_mem rest i [] hi
      by_cases h0 : getQ p c = 0
      · simp only [h0, if_pos rfl]
        have hz' : ∀ r ∈ rest, ∀ j < c + 1, getQ r j = 0 := by
          intro r hr j hj
          rcases Nat.lt_or_ge j c with hjc | hjc
          · exact hz r hr j hjc
          · have : j = c := by omega
            subst this
            exact colAt_all_zero h0 r hr
        obtain ⟨⟨ps, hps⟩, hlen'⟩ := ih (c + 1) rest n hlen hz' (by omega)
        exact ⟨⟨ps, PEch_mono (Nat.le_succ c) hps⟩, hlen'⟩
      · rw [if_neg h0]
        set v := getQ p c with hvdef
        set rest2 := listSwap rest i with hr2def
        have hhead : rest2.headD [] = p := listSwap_headD hi
        set pr := rowDivFrom c v (rest2.headD []) with hprdef
        have hprP : pr = rowDivFrom c v p := by rw [hprdef, hhead]
        have hprlen : pr.length = n := by
          rw [hprP, length_rowDivFrom]
          exact hlen p hpmem
        have hprget : ∀ j, getQ pr j = if j < c then getQ p j else getQ p j / v := by
          intro j; rw [hprP]; exact getQ_rowDivFrom c v p j
        have hpr1 : getQ pr c = 1 := by
          rw [hprget c, if_neg (lt_irrefl c)]
          exact div_self h0
        have hpr0 : ∀ j < c, getQ pr j = 0 := by
          intro j hj
          rw [hprget j, if_pos hj]
          exact hz p hpmem j hj
        set M0 := rest2.tail.map (fun row => rowSubFrom c (getQ row c) pr row)
          with hM0def
        have hM0mem : ∀ r ∈ M0, ∃ row ∈ rest, r = rowSubFrom c (getQ row c) pr row := by
          intro r hr
          rw [hM0def] at hr
          obtain ⟨row, hrow, rfl⟩ := List.mem_map.mp hr
          exact ⟨row, listSwap_tail_mem hi hrow, rfl⟩
        have hM0len : ∀ r ∈ M0, r.length = n := by
          intro r hr
          obtain ⟨row, hrow, rfl⟩ := hM0mem r hr
          rw [length_rowSubFrom c _ pr row (by rw [hlen row hrow, hprlen])]
          exact hlen row hrow
        have hM0z : ∀ r ∈ M0, ∀ j < c + 1, getQ r j = 0 := by
          intro r hr j hj
          obtain ⟨row, hrow, rfl⟩ := hM0mem r hr
          rw [getQ_rowSubFrom c _ pr row (by rw [hlen row hrow, hprlen]) j]
          rcases Nat.lt_or_ge j c with hjc | hjc
          · rw [if_pos hjc]
            exact hz row hrow j hjc
          · have hjc' : c = j := by omega
            subst hjc'
            rw [if_neg (lt_irrefl c), hpr1, mul_one, sub_self]
        obtain ⟨⟨ps', hps'⟩, hlen'⟩ := ih (c + 1) M0 n hM0len hM0z (by omega)
        refine ⟨⟨c :: ps', ?_⟩, ?_⟩
        · exact PEch.step c c pr _ ps' (le_refl c) hpr1 hpr0
            (fun r hr j hj => PEch_zeroCols hps' r hr j (by omega)) hps'
        · intro r hr
          rcases List.mem_cons.mp hr with rfl | hr2
          · exact hprlen
          · exact hlen' r hr2

/-! ### Backward substitution: unrolling -/

theorem backElim_nil (r0 : List ℚ) : UsFusion.backElim r0 [] = [] := by
  unfold UsFusion.backElim
  cases UsFusion.leadIdx r0 <;> simp

theorem length_backElim (r0 : List ℚ) (above : Mat) :
    (UsFusion.backElim r0 above).length = above.length := by
  unfold UsFusion.backElim
  cases UsFusion.leadIdx r0 <;> simp

theorem backElim_append (r0 : List ℚ) (l : Mat) (p : List ℚ) :
    UsFusion.backElim r0 (l ++ [p]) =
      UsFusion.backElim r0 l ++ [UsFusion.elim1 r0 p] := by
  unfold UsFusion.backElim UsFusion.elim1
  cases UsFusion.leadIdx r0 <;> simp

theorem backElim_mem {r0 : List ℚ} {above : Mat} {r : List ℚ}
    (h : r ∈ UsFusion.backElim r0 above) :
    ∃ row ∈ above, r = UsFusion.elim1 r0 row := by
  unfold UsFusion.backElim at h
  unfold UsFusion.elim1
  cases hL : UsFusion.leadIdx r0 with
  | none => rw [hL] at h; exact ⟨r, h, rfl⟩
  | some pc =>
    rw [hL] at h
    obtain ⟨row, hrow, rfl⟩ := List.mem_map.mp h
    exact ⟨row, hrow, rfl⟩

theorem backAux_nil (fuel : Nat) : UsFusion.backAux fuel [] = [] := by
  cases fuel <;> rfl

theorem backAuxP_nil (fuel : Nat) (p : List ℚ) : backAuxP fuel [] p = p := by
  cases fuel <;> rfl

theorem length_backAux (fuel : Nat) :
    ∀ l : Mat, (UsFusion.backAux fuel l).length = l.length := by
  induction fuel with
  | zero => intro l; rfl
  | succ fuel ih =>
    intro l
    cases l with
    | nil => rfl
    | cons r0 above =>
      show (r0 :: UsFusion.backAux fuel (UsFusion.backElim r0 above)).length = _
      simp [ih, length_backElim]

theorem length_backward (rows : Mat) :
    (UsFusion.backward rows).length = rows.length := by
  simp [UsFusion.backward, length_backAux]

theorem backAux_append (fuel : Nat) :
    ∀ (l : Mat) (p : List ℚ), l.length ≤ fuel →
      UsFusion.backAux (fuel + 1) (l ++ [p]) =
        UsFusion.backAux fuel l ++ [backAuxP fuel l p] := by
  induction fuel with
  | zero =>
    intro l p hl
    have : l = [] := List.eq_nil_of_length_eq_zero (Nat.le_zero.mp hl)
    subst this
    show p :: UsFusion.backAux 0 (UsFusion.backElim p []) = _
    rw [backElim_nil]
    rfl
  | succ fuel ih =>
    intro l p hl
    cases l with
    | nil =>
      rw [backAuxP_nil, backAux_nil]
      show p :: UsFusion.backAux (fuel + 1) (UsFusion.backElim p []) = [] ++ [p]
      rw [backElim_nil, backAux_nil]
      rfl
    | cons r0 l2 =>
      show r0 :: UsFusion.backAux (fuel + 1) (UsFusion.backElim r0 (l2 ++ [p])) = _
      rw [backElim_append, ih (UsFusion.backElim r0 l2) (UsFusion.elim1 r0 p)
        (by rw [length_backElim]; simpa using Nat.le_of_succ_le_succ hl)]
      rfl

theorem backAuxP_foldl (fuel : Nat) :
    ∀ (l : Mat) (p : List ℚ), l.length ≤ fuel →
      backAuxP fuel l p =
        (UsFusion.backAux fuel l).foldl (fun q t => UsFusion.elim1 t q) p := by
  induction fuel with
  | zero =>
    intro l p hl
    have : l = [] := List.eq_nil_of_length_eq_zero (Nat.le_zero.mp hl)
    subst this
    rfl
  | succ fuel ih =>
    intro l p hl
    cases l with
    | nil => rfl
    | cons r0 l2 =>
      show backAuxP fuel (UsFusion.backElim r0 l2) (UsFusion.elim1 r0 p) = _
      rw [ih (UsFusion.backElim r0 l2) (UsFusion.elim1 r0 p)
        (by rw [length_backElim]; simpa using Nat.le_of_succ_le_succ hl)]
      rfl

theorem hitRow_cons (t : List ℚ) (T : Mat) (p : List ℚ) :
    hitRow (t :: T) p = UsFusion.elim1 t (hitRow T p) := by
  unfold hitRow
  rw [List.reverse_cons, List.foldl_append]
  rfl

theorem backward_cons (p : List ℚ) (rows : Mat) :
    UsFusion.backward (p :: rows) =
      hitRow (UsFusion.backward rows) p :: UsFusion.backward rows := by
  show (UsFusion.backAux (rows.length + 1) ((p :: rows).reverse)).reverse = _
  rw [List.reverse_cons, backAux_append rows.length rows.reverse p (by simp),
    List.reverse_append]
  simp only [List.reverse_cons, List.reverse_nil, List.nil_append,
    List.singleton_append, List.cons.injEq]
  constructor
  · rw [backAuxP_foldl rows.length rows.reverse p (by simp)]
    unfold hitRow
    congr 1
    show UsFusion.backAux rows.length rows.reverse =
      ((UsFusion.backAux rows.length rows.reverse).reverse).reverse
    rw [List.reverse_reverse]
  · rfl

/-! ### Leading columns -/

theorem leadIdx_none {r : List ℚ} (h : ∀ j, getQ r j = 0) :
    UsFusion.leadIdx r = none := by
  unfold UsFusion.leadIdx
  rw [List.findIdx?_eq_none_iff]
  intro x hx
  obtain ⟨i, hi, hgi⟩ := List.getElem_of_mem hx
  have hx0 : x = 0 := by rw [← hgi, ← getQ_getElem r i hi]; exact h i
  simp [hx0]

theorem leadIdx_pivot {r : List ℚ} {pc : Nat} (h1 : getQ r pc = 1)
    (h0 : ∀ j < pc, getQ r j = 0) : UsFusion.leadIdx r = some pc := by
  unfold UsFusion.leadIdx
  induction r generalizing pc with
  | nil => simp [getQ_nil] at h1
  | cons x xs ih =>
    cases pc with
    | zero =>
      rw [getQ_cons_zero] at h1
      rw [List.findIdx?_cons]
      simp [h1]
    | succ m =>
      have hx : x = 0 := by
        simpa [getQ_cons_zero] using h0 0 (Nat.succ_pos m)
      have ht : List.findIdx? (fun x => decide (x ≠ 0)) xs = some m :=
        ih (by simpa [getQ_cons_succ] using h1)
          (fun j hj => by
            simpa [getQ_cons_succ] using h0 (j + 1) (Nat.succ_lt_succ hj))
      rw [List.findIdx?_cons]
      simp [hx, List.findIdx?_succ]
      simpa using ht

theorem elim1_zero_row {t p : List ℚ} (h : ∀ j, getQ t j = 0) :
    UsFusion.elim1 t p = p := by
  unfold UsFusion.elim1
  rw [leadIdx_none h]

theorem leadIdx_some_nonzero : ∀ {r : List ℚ} {c : Nat},
    UsFusion.leadIdx r = some c → getQ r c ≠ 0 := by
  intro r
  unfold UsFusion.leadIdx
  induction r with
  | nil => intro c h; simp at h
  | cons x xs ih =>
    intro c h
    rw [List.findIdx?_cons] at h
    by_cases hx : x = 0
    · simp only [hx, decide_eq_true_eq, ne_eq, not_true_eq_false] at h
      rw [if_neg (by simp)] at h
      rw [List.findIdx?_succ] at h
      obtain ⟨m, hm, rfl⟩ := Option.map_eq_some'.mp h
      rw [getQ_cons_succ]
      exact ih hm
    · rw [if_pos (by simpa using hx)] at h
      obtain rfl := Option.some.inj h
      rw [getQ_cons_zero]
      exact hx

theorem foldl_elim1_id {L : Mat}
    (h : ∀ t ∈ L, ∀ q : List ℚ, UsFusion.elim1 t q = q) :
    ∀ p : List ℚ, L.foldl (fun q t => UsFusion.elim1 t q) p = p := by
  induction L with
  | nil => intro p; rfl
  | cons t L ih =>
    intro p
    rw [List.foldl_cons, h t (List.mem_cons_self t L) p]
    exact ih (fun t2 ht q => h t2 (List.mem_cons_of_mem _ ht) q) p

theorem hitRow_zrows {T : Mat} (h : ∀ r ∈ T, ∀ j, getQ r j = 0) (p : List ℚ) :
    hitRow T p = p := by
  unfold hitRow
  exact foldl_elim1_id
    (fun t ht q => elim1_zero_row (h t (List.mem_reverse.mp ht))) p

/-- Specification of the accumulated backward eliminations hitting a row
that lies above a block already in reduced row echelon structure: entries
left of the block's first possible pivot column are untouched, and the
entries at all pivot columns of the block are cleared to zero. -/
theorem hitRow_spec {n : Nat} : ∀ {c : Nat} {T : Mat} {ps : List Nat},
    PRref c T ps → (∀ r ∈ T, r.length = n) →
    ∀ p : List ℚ, p.length = n →
      (hitRow T p).length = n ∧
      (∀ j < c, getQ (hitRow T p) j = getQ p j) ∧
      (∀ j ∈ ps, getQ (hitRow T p) j = 0) := by
  intro c T ps h
  induction h with
  | zrows cc rows hz =>
    intro hTlen p hp
    rw [hitRow_zrows hz p]
    exact ⟨hp, fun j _ => rfl, by simp⟩
  | step cc pc t rows ps hc hp1 hp0 hps hrows htail ih =>
    intro hTlen p hp
    have htlen : t.length = n := hTlen t (List.mem_cons_self t rows)
    have hrowslen : ∀ r ∈ rows, r.length = n :=
      fun r hr => hTlen r (List.mem_cons_of_mem _ hr)
    obtain ⟨hqlen, hqlow, hqps⟩ := ih hrowslen p hp
    rw [hitRow_cons]
    set q := hitRow rows p with hqdef
    have hlead : UsFusion.leadIdx t = some pc := leadIdx_pivot hp1 hp0
    have helim : UsFusion.elim1 t q = rowSubFrom pc (getQ q pc) t q := by
      unfold UsFusion.elim1
      rw [hlead]
    rw [helim]
    have hlen2 : q.length = t.length := by rw [hqlen, htlen]
    have hget := getQ_rowSubFrom pc (getQ q pc) t q hlen2
    refine ⟨?_, ?_, ?_⟩
    · rw [length_rowSubFrom pc _ t q hlen2, hqlen]
    · intro j hj
      rw [hget j, if_pos (lt_of_lt_of_le hj hc)]
      exact hqlow j (lt_of_lt_of_le hj (le_trans hc (Nat.le_succ pc)))
    · intro j hj
      rcases List.mem_cons.mp hj with rfl | hj2
      · rw [hget j, if_neg (lt_irrefl j), hp1, mul_one, sub_self]
      · have hge : pc + 1 ≤ j := PRref_pivots_ge htail j hj2
        rw [hget j, if_neg (by omega), hqps j hj2, hps j hj2, mul_zero, sub_zero]

theorem backAux_zrows (fuel : Nat) : ∀ {l : Mat},
    (∀ r ∈ l, ∀ j, getQ r j = 0) → UsFusion.backAux fuel l = l := by
  induction fuel with
  | zero => intro l _; rfl
  | succ fuel ih =>
    intro l h
    cases l with
    | nil => rfl
    | cons r0 above =>
      show r0 :: UsFusion.backAux fuel (UsFusion.backElim r0 above) = r0 :: above
      have helim : UsFusion.backElim r0 above = above := by
        unfold UsFusion.backElim
        rw [leadIdx_none (h r0 (List.mem_cons_self r0 above))]
      rw [helim, ih (fun r hr j => h r (List.mem_cons_of_mem _ hr) j)]

theorem backward_zrows {T : Mat} (h : ∀ r ∈ T, ∀ j, getQ r j = 0) :
    UsFusion.backward T = T := by
  unfold UsFusion.backward
  rw [backAux_zrows T.length (fun r hr j => h r (List.mem_reverse.mp hr) j),
    List.reverse_reverse]

/-- Backward substitution turns echelon structure into reduced row echelon
structure, with the same pivot columns. -/
theorem backward_spec {n : Nat} : ∀ {c : Nat} {T : Mat} {ps : List Nat},
    PEch c T ps → (∀ r ∈ T, r.length = n) →
    PRref c (UsFusion.backward T) ps ∧
      ∀ r ∈ UsFusion.backward T, r.length = n := by
  intro c T ps h
  induction h with
  | zrows cc rows hz =>
    intro hTlen
    rw [backward_zrows hz]
    exact ⟨PRref.zrows cc rows hz, hTlen⟩
  | step cc pc t rows ps hc hp1 hp0 hrows htail ih =>
    intro hTlen
    have htlen : t.length = n := hTlen t (List.mem_cons_self t rows)
    have hrowslen : ∀ r ∈ rows, r.length = n :=
      fun r hr => hTlen r (List.mem_cons_of_mem _ hr)
    obtain ⟨hT, hTlen'⟩ := ih hrowslen
    rw [backward_cons]
    obtain ⟨hqlen, hqlow, hqps⟩ := hitRow_spec hT hTlen' t htlen
    refine ⟨?_, ?_⟩
    · refine PRref.step cc pc _ (UsFusion.backward rows) ps hc ?_ ?_ ?_ ?_ hT
      · rw [hqlow pc (Nat.lt_succ_self pc)]
        exact hp1
      · intro j hj
        rw [hqlow j (lt_trans hj (Nat.lt_succ_self pc))]
        exact hp0 j hj
      · exact hqps
      · intro r hr j hj
        exact PRref_zeroCols hT r hr j (by omega)
    · intro r hr
      rcases List.mem_cons.mp hr with rfl | hr2
      · exact hqlen
      · exact hTlen' r hr2

theorem length_forwardAux (fuel : Nat) : ∀ (c : Nat) (rest : Mat),
    (UsFusion.forwardAux fuel c rest).length = rest.length := by
  induction fuel with
  | zero => intro c rest; rfl
  | succ fuel ih =>
    intro c rest
    cases rest with
    | nil => rfl
    | cons a as =>
      rw [forwardAux_succ_cons]
      set rest := a :: as with hrest
      set i := argmaxAbs (colAt c rest)
      set p := rest.getD i []
      by_cases h0 : getQ p c = 0
      · simp only [h0, if_pos rfl]
        exact ih (c + 1) rest
      · rw [if_neg h0]
        simp only [List.length_cons]
        rw [ih, List.length_map, List.length_tail, length_listSwap]
        simp [hrest]

/-- The elimination of any rectangular matrix is in reduced row echelon
structure, has rows of the same width and has the same number of rows. -/
theorem eliminate_spec {X : Mat} {n : Nat} (hlen : ∀ r ∈ X, r.length = n) :
    (∃ ps, PRref 0 (UsFusion.eliminate X) ps) ∧
      (∀ r ∈ UsFusion.eliminate X, r.length = n) ∧
      (UsFusion.eliminate X).length = X.length := by
  cases X with
  | nil =>
    have he : UsFusion.eliminate [] = [] := rfl
    rw [he]
    exact ⟨⟨[], PRref.zrows 0 [] (by simp)⟩, by simp, rfl⟩
  | cons a as =>
    have hnc : numCols (a :: as) = n := hlen a (List.mem_cons_self a as)
    obtain ⟨⟨ps, hps⟩, hflen⟩ :=
      forwardAux_spec (numCols (a :: as)) 0 (a :: as) n hlen
        (fun r _ j hj => absurd hj (Nat.not_lt_zero j))
        (by simp [hnc])
    obtain ⟨hr, hrlen⟩ := backward_spec hps hflen
    refine ⟨⟨ps, hr⟩, hrlen, ?_⟩
    show (UsFusion.backward
      (UsFusion.forwardAux (numCols (a :: as)) 0 (a :: as))).length = _
    rw [length_backward, length_forwardAux]

/-- Extraction of the per-row reduced row echelon property from the
structural predicate. -/
theorem PRref_rows_property : ∀ {c : Nat} {Y : Mat} {ps : List Nat},
    PRref c Y ps →
    ∀ i, i < Y.length → (∃ j, getQ (Y.getD i []) j ≠ 0) →
      ∃ pc ∈ ps, getQ (Y.getD i []) pc = 1 ∧
        (∀ j < pc, getQ (Y.getD i []) j = 0) ∧
        ∀ k, k < Y.length → k ≠ i → getQ (Y.getD k []) pc = 0 := by
  intro c Y ps h
  induction h with
  | zrows cc rows hz =>
    intro i hi hnz
    obtain ⟨j, hj⟩ := hnz
    exact absurd (hz (rows.getD i []) (getDq_mem rows i [] hi) j) hj
  | step cc pc t rows ps hc hp1 hp0 hps hrows htail ih =>
    intro i hi hnz
    cases i with
    | zero =>
      refine ⟨pc, List.mem_cons_self pc ps, hp1, hp0, ?_⟩
      intro k hk hknz
      cases k with
      | zero => exact absurd rfl hknz
      | succ k2 =>
        rw [List.getD_cons_succ]
        exact hrows (rows.getD k2 []) (getDq_mem rows k2 [] (by simpa using hk))
          pc (le_refl pc)
    | succ i2 =>
      rw [List.getD_cons_succ] at hnz ⊢
      obtain ⟨pc', hpc'mem, h1, h0, hother⟩ := ih i2 (by simpa using hi) hnz
      refine ⟨pc', List.mem_cons_of_mem pc hpc'mem, h1, h0, ?_⟩
      intro k hk hki
      cases k with
      | zero =>
        rw [List.getD_cons_zero]
        exact hps pc' hpc'mem
      | succ k2 =>
        rw [List.getD_cons_succ]
        exact hother k2 (by simpa using hk) (by omega)

/-! ### Idempotence of the elimination -/

theorem argmaxAbs_cons_zero_tail {x : ℚ} {xs : List ℚ}
    (h : ∀ j, getQ xs j = 0) : argmaxAbs (x :: xs) = 0 := by
  show (if |x| < |getQ xs (argmaxAbs xs)| then argmaxAbs xs + 1 else 0) = 0
  rw [h (argmaxAbs xs), abs_zero, if_neg (not_lt.mpr (abs_nonneg x))]

theorem PRref_cases {c : Nat} {a : List ℚ} {as : Mat} {ps : List Nat}
    (h : PRref c (a :: as) ps) :
    (∀ r ∈ a :: as, ∀ j, getQ r j = 0) ∨
      ∃ pc ps2, ps = pc :: ps2 ∧ c ≤ pc ∧ getQ a pc = 1 ∧
        (∀ j < pc, getQ a j = 0) ∧ (∀ j ∈ ps2, getQ a j = 0) ∧
        (∀ r ∈ as, ∀ j ≤ pc, getQ r j = 0) ∧ PRref (pc + 1) as ps2 :=
  match ps, h with
  | [], PRref.zrows _ _ hz => Or.inl hz
  | _ :: _, PRref.step _ pc _ _ ps2 hc hp1 hp0 hps hrows htail =>
    Or.inr ⟨pc, ps2, rfl, hc, hp1, hp0, hps, hrows, htail⟩

/-- Forward elimination leaves a matrix in reduced row echelon structure
unchanged. -/
theorem forward_id {n : Nat} : ∀ (fuel : Nat) {c : Nat} {Y : Mat} {ps : List Nat},
    PRref c Y ps → (∀ r ∈ Y, r.length = n) → n ≤ c + fuel →
    UsFusion.forwardAux fuel c Y = Y := by
  intro fuel
  induction fuel with
  | zero => intro c Y ps _ _ _; rfl
  | succ fuel ih =>
    intro c Y ps h hlen hn
    cases Y with
    | nil => rfl
    | cons a as =>
      rw [forwardAux_succ_cons]
      set rest := a :: as with hrest
      set i := argmaxAbs (colAt c rest) with hidef
      set p := rest.getD i [] with hpdef
      have hi : i < rest.length := by
        rw [hidef, ← length_colAt c rest]
        exact argmaxAbs_lt_length (by simp [colAt, hrest])
      have hpmem : p ∈ rest := getDq_mem rest i [] hi
      rcases PRref_cases h with hz | ⟨pc, ps2, rfl, hc, hp1, hp0, hps, hrows, htail⟩
      · have h0 : getQ p c = 0 := hz p hpmem c
        simp only [h0, if_pos rfl]
        exact ih (PRref.zrows (c + 1) rest hz) hlen (by omega)
      · rcases Nat.lt_or_ge c pc with hcpc | hcpc
        · have hcol : ∀ row ∈ rest, getQ row c = 0 := by
            intro row hrow
            rcases List.mem_cons.mp hrow with rfl | hrow2
            · exact hp0 c hcpc
            · exact hrows row hrow2 c (le_of_lt hcpc)
          have h0 : getQ p c = 0 := hcol p hpmem
          simp only [h0, if_pos rfl]
          exact ih (PRref.step (c + 1) pc a as ps2 hcpc hp1 hp0 hps hrows htail)
            hlen (by omega)
        · have hceq : c = pc := Nat.le_antisymm hc hcpc
          subst hceq
          have htailz : ∀ j, getQ (colAt c as) j = 0 := by
            intro j
            rcases Nat.lt_or_ge j as.length with hj | hj
            · rw [getQ_colAt hj]
              exact hrows (as.getD j []) (getDq_mem as j [] hj) c (le_refl c)
            · exact getQ_eq_zero_of_len_le (by simpa [length_colAt] using hj)
          have hi0 : i = 0 := by
            rw [hidef, show colAt c rest = getQ a c :: colAt c as from rfl]
            exact argmaxAbs_cons_zero_tail htailz
          have hpa : p = a := by rw [hpdef, hi0]; rfl
          have h1 : getQ p c = 1 := by rw [hpa]; exact hp1
          rw [if_neg (by rw [h1]; exact one_ne_zero)]
          have hswap : listSwap rest i = rest := by rw [hi0]; exact listSwap_zero rest
          have hhead : (listSwap rest i).headD [] = a := by rw [hswap, hrest]; rfl
          have hpr : rowDivFrom c (getQ p c) ((listSwap rest i).headD []) = a := by
            rw [h1, hhead, rowDivFrom_one]
          show rowDivFrom c (getQ p c) ((listSwap rest i).headD []) ::
              UsFusion.forwardAux fuel (c + 1)
                ((listSwap rest i).tail.map (fun row =>
                  rowSubFrom c (getQ row c)
                    (rowDivFrom c (getQ p c) ((listSwap rest i).headD [])) row)) = rest
          simp only [hswap]
          have hpr2 : rowDivFrom c (getQ p c) (rest.headD []) = a := by
            rw [h1, show rest.headD [] = a from rfl]
            exact rowDivFrom_one c a
          simp only [hpr2]
          show a :: UsFusion.forwardAux fuel (c + 1)
              (as.map (fun row => rowSubFrom c (getQ row c) a row)) = rest
          have hmapid : as.map (fun row => rowSubFrom c (getQ row c) a row) = as := by
            have hrid : ∀ row ∈ as, rowSubFrom c (getQ row c) a row = row := by
              intro row hrow
              rw [hrows row hrow c (le_refl c)]
              exact rowSubFrom_zero_coeff c a row
                (by rw [hlen row (List.mem_cons_of_mem a hrow),
                        hlen a (List.mem_cons_self a as)])
            calc as.map (fun row => rowSubFrom c (getQ row c) a row)
                = as.map id := List.map_congr_left (fun row hrow => hrid row hrow)
              _ = as := List.map_id as
          rw [hmapid,
            ih htail (fun r hr => hlen r (List.mem_cons_of_mem a hr)) (by omega)]

/-- The accumulated backward eliminations do not change a row that is
already zero at every pivot column of the block below it. -/
theorem hitRow_id {n : Nat} : ∀ {c : Nat} {T : Mat} {ps : List Nat},
    PRref c T ps → (∀ r ∈ T, r.length = n) →
    ∀ p : List ℚ, p.length = n → (∀ j ∈ ps, getQ p j = 0) →
      hitRow T p = p := by
  intro c T ps h
  induction h with
  | zrows cc rows hz =>
    intro _ p _ _
    exact hitRow_zrows hz p
  | step cc pc t rows ps hc hp1 hp0 hps hrows htail ih =>
    intro hTlen p hp hpz
    rw [hitRow_cons,
      ih (fun r hr => hTlen r (List.mem_cons_of_mem _ hr)) p hp
        (fun j hj => hpz j (List.mem_cons_of_mem pc hj))]
    unfold UsFusion.elim1
    rw [leadIdx_pivot hp1 hp0]
    show rowSubFrom pc (getQ p pc) t p = p
    rw [hpz pc (List.mem_cons_self pc ps)]
    exact rowSubFrom_zero_coeff pc t p
      (by rw [hp, hTlen t (List.mem_cons_self t rows)])

/-- Backward substitution leaves a matrix in reduced row echelon structure
unchanged. -/
theorem backward_id {n : Nat} : ∀ {c : Nat} {T : Mat} {ps : List Nat},
    PRref c T ps → (∀ r ∈ T, r.length = n) → UsFusion.backward T = T := by
  intro c T ps h
  induction h with
  | zrows cc rows hz =>
    intro _
    exact backward_zrows hz
  | step cc pc t rows ps hc hp1 hp0 hps hrows htail ih =>
    intro hTlen
    have hrowslen : ∀ r ∈ rows, r.length = n :=
      fun r hr => hTlen r (List.mem_cons_of_mem _ hr)
    rw [backward_cons, ih hrowslen,
      hitRow_id htail hrowslen t (hTlen t (List.mem_cons_self t rows)) hps]

/-- `eliminate` leaves its own output unchanged. -/
theorem eliminate_of_prref {Y : Mat} {n : Nat} {ps : List Nat}
    (hps : PRref 0 Y ps) (hlen : ∀ r ∈ Y, r.length = n) :
    UsFusion.eliminate Y = Y := by
  cases Y with
  | nil => rfl
  | cons b bs =>
    have hnc : numCols (b :: bs) = n := hlen b (List.mem_cons_self b bs)
    show UsFusion.backward
      (UsFusion.forwardAux (numCols (b :: bs)) 0 (b :: bs)) = b :: bs
    rw [forward_id (numCols (b :: bs)) hps hlen (by simp [hnc]),
      backward_id hps hlen]

/-! ### The float-based pivot selection -/

theorem toFloat_zero : toFloat 0 = some 0 := by decide

set_option maxRecDepth 100000 in
set_option exponentiation.threshold 1500 in
theorem toFloat_one : toFloat 1 = some 1 := by decide

theorem floatsOf_length : ∀ {l fs : List ℚ}, floatsOf l = some fs →
    fs.length = l.length := by
  intro l
  induction l with
  | nil =>
    intro fs h
    obtain rfl : ([] : List ℚ) = fs := Option.some.inj h
    rfl
  | cons x xs ih =>
    intro fs h
    simp only [floatsOf] at h
    cases hx : toFloat x with
    | none => rw [hx] at h; exact absurd h (by simp)
    | some f =>
      rw [hx] at h
      cases hxs : floatsOf xs with
      | none => rw [hxs] at h; exact absurd h (by simp)
      | some fs2 =>
        rw [hxs] at h
        obtain rfl : f :: fs2 = fs := Option.some.inj h
        simp [ih hxs]

theorem argmaxAbsF_lt_length {l : List ℚ} {i : Nat} (hne : l ≠ [])
    (h : argmaxAbsF l = some i) : i < l.length := by
  unfold argmaxAbsF at h
  cases hfs : floatsOf l with
  | none => rw [hfs] at h; exact absurd h (by simp)
  | some fs =>
    rw [hfs] at h
    simp only [Option.map_some'] at h
    obtain rfl : argmaxAbs fs = i := Option.some.inj h
    have hlen := floatsOf_length hfs
    have hfne : fs ≠ [] := by
      intro hemp
      subst hemp
      exact hne (List.length_eq_zero.mp hlen.symm)
    have := argmaxAbs_lt_length hfne
    rwa [hlen] at this

theorem getQ_map_zero (l : List ℚ) : ∀ (j : Nat),
    getQ (l.map (fun _ => (0 : ℚ))) j = 0 := by
  induction l with
  | nil => intro j; rfl
  | cons x xs ih =>
    intro j
    cases j with
    | zero => rfl
    | succ m => exact ih m

theorem floatsOf_zeros : ∀ {l : List ℚ}, (∀ x ∈ l, x = 0) →
    floatsOf l = some (l.map (fun _ => (0 : ℚ))) := by
  intro l
  induction l with
  | nil => intro _; rfl
  | cons x xs ih =>
    intro h
    have hx : x = 0 := h x (List.mem_cons_self x xs)
    subst hx
    simp only [floatsOf, toFloat_zero,
      ih (fun y hy => h y (List.mem_cons_of_mem _ hy)), List.map_cons]

theorem argmaxAbsF_zeros {l : List ℚ} (h : ∀ x ∈ l, x = 0) :
    argmaxAbsF l = some (argmaxAbs (l.map (fun _ => (0 : ℚ)))) := by
  unfold argmaxAbsF
  rw [floatsOf_zeros h]
  rfl

theorem argmaxAbsF_one_zeros {xs : List ℚ} (h : ∀ y ∈ xs, y = 0) :
    argmaxAbsF ((1 : ℚ) :: xs) = some 0 := by
  unfold argmaxAbsF
  simp only [floatsOf, toFloat_one, floatsOf_zeros h]
  simp only [Option.map_some']
  rw [argmaxAbs_cons_zero_tail (fun j => getQ_map_zero xs j)]

theorem forwardAuxF_succ_cons (fuel c : Nat) (a : List ℚ) (as : Mat) :
    UsFusion.forwardAuxF (fuel + 1) c (a :: as) =
      (match argmaxAbsF (colAt c (a :: as)) with
       | none => none
       | some i =>
         let p := (a :: as).getD i []
         if getQ p c = 0 then UsFusion.forwardAuxF fuel (c + 1) (a :: as)
         else
           let rest2 := listSwap (a :: as) i
           let pr := rowDivFrom c (getQ p c) (rest2.headD [])
           (UsFusion.forwardAuxF fuel (c + 1)
             (rest2.tail.map (fun row => rowSubFrom c (getQ row c) pr row))).map
             (fun M => pr :: M)) := rfl

theorem forwardAuxF_cons_none {c : Nat} {a : List ℚ} {as : Mat} (fuel : Nat)
    (hF : argmaxAbsF (colAt c (a :: as)) = none) :
    UsFusion.forwardAuxF (fuel + 1) c (a :: as) = none := by
  rw [forwardAuxF_succ_cons, hF]

theorem forwardAuxF_cons_some {c : Nat} {a : List ℚ} {as : Mat} {i : Nat}
    (fuel : Nat) (hF : argmaxAbsF (colAt c (a :: as)) = some i) :
    UsFusion.forwardAuxF (fuel + 1) c (a :: as) =
      (if getQ ((a :: as).getD i []) c = 0 then
        UsFusion.forwardAuxF fuel (c + 1) (a :: as)
      else
        (UsFusion.forwardAuxF fuel (c + 1)
          ((listSwap (a :: as) i).tail.map (fun row =>
            rowSubFrom c (getQ row c)
              (rowDivFrom c (getQ ((a :: as).getD i []) c)
                ((listSwap (a :: as) i).headD [])) row))).map
          (fun M => rowDivFrom c (getQ ((a :: as).getD i []) c)
            ((listSwap (a :: as) i).headD []) :: M)) := by
  rw [forwardAuxF_succ_cons, hF]

theorem forwardSafeF_succ_cons (fuel c : Nat) (a : List ℚ) (as : Mat) :
    UsFusion.forwardSafeF (fuel + 1) c (a :: as) =
      (match argmaxAbsF (colAt c (a :: as)) with
       | none => false
       | some i =>
         let p := (a :: as).getD i []
         if getQ p c = 0 then
           (colAt c (a :: as)).all (fun x => x == 0) &&
             UsFusion.forwardSafeF fuel (c + 1) (a :: as)
         else
           let rest2 := listSwap (a :: as) i
           let pr := rowDivFrom c (getQ p c) (rest2.headD [])
           UsFusion.forwardSafeF fuel (c + 1)
             (rest2.tail.map (fun row => rowSubFrom c (getQ row c) pr row))) := rfl

theorem forwardSafeF_cons_some {c : Nat} {a : List ℚ} {as : Mat} {i : Nat}
    (fuel : Nat) (hF : argmaxAbsF (colAt c (a :: as)) = some i) :
    UsFusion.forwardSafeF (fuel + 1) c (a :: as) =
      (if getQ ((a :: as).getD i []) c = 0 then
        (colAt c (a :: as)).all (fun x => x == 0) &&
          UsFusion.forwardSafeF fuel (c + 1) (a :: as)
      else
        UsFusion.forwardSafeF fuel (c + 1)
          ((listSwap (a :: as) i).tail.map (fun row =>
            rowSubFrom c (getQ row c)
              (rowDivFrom c (getQ ((a :: as).getD i []) c)
                ((listSwap (a :: as) i).headD [])) row))) := by
  rw [forwardSafeF_succ_cons, hF]

theorem length_forwardAuxF (fuel : Nat) : ∀ (c : Nat) (rest M : Mat),
    UsFusion.forwardAuxF fuel c rest = some M → M.length = rest.length := by
  induction fuel with
  | zero =>
    intro c rest M h
    obtain rfl : rest = M := Option.some.inj h
    rfl
  | succ fuel ih =>
    intro c rest M h
    cases rest with
    | nil =>
      obtain rfl : ([] : Mat) = M := Option.some.inj h
      rfl
    | cons a as =>
      cases hF : argmaxAbsF (colAt c (a :: as)) with
      | none => rw [forwardAuxF_cons_none fuel hF] at h; exact absurd h (by simp)
      | some i =>
        rw [forwardAuxF_cons_some fuel hF] at h
        by_cases h0 : getQ ((a :: as).getD i []) c = 0
        · rw [if_pos h0] at h
          exact ih (c + 1) (a :: as) M h
        · rw [if_neg h0] at h
          set pr := rowDivFrom c (getQ ((a :: as).getD i []) c)
            ((listSwap (a :: as) i).headD []) with hprdef
          set M0 := (listSwap (a :: as) i).tail.map
            (fun row => rowSubFrom c (getQ row c) pr row) with hM0def
          cases hrec : UsFusion.forwardAuxF fuel (c + 1) M0 with
          | none => rw [hrec] at h; exact absurd h (by simp)
          | some M1 =>
            rw [hrec] at h
            simp only [Option.map_some'] at h
            obtain rfl : pr :: M1 = M := Option.some.inj h
            have h1 := ih (c + 1) M0 M1 hrec
            simp only [List.length_cons, h1, hM0def, List.length_map,
              List.length_tail, length_listSwap]
            simp

/-! ### The float-based forward elimination under a safe scan -/

theorem forwardAuxF_spec (fuel : Nat) :
    ∀ (c : Nat) (rest : Mat) (n : Nat) (Y : Mat),
      (∀ r ∈ rest, r.length = n) →
      (∀ r ∈ rest, ∀ j < c, getQ r j = 0) →
      n ≤ c + fuel →
      UsFusion.forwardSafeF fuel c rest = true →
      UsFusion.forwardAuxF fuel c rest = some Y →
      (∃ ps, PEch c Y ps) ∧ ∀ r ∈ Y, r.length = n := by
  induction fuel with
  | zero =>
    intro c rest n Y hlen hz hn _ hok
    obtain rfl : rest = Y := Option.some.inj hok
    have hz' : ∀ r ∈ rest, ∀ j, getQ r j = 0 := by
      intro r hr j
      rcases Nat.lt_or_ge j c with hj | hj
      · exact hz r hr j hj
      · exact getQ_eq_zero_of_len_le (by rw [hlen r hr]; omega)
    exact ⟨⟨[], PEch.zrows c rest hz'⟩, hlen⟩
  | succ fuel ih =>
    intro c rest n Y hlen hz hn hsafe hok
    cases rest with
    | nil =>
      obtain rfl : ([] : Mat) = Y := Option.some.inj hok
      exact ⟨⟨[], PEch.zrows c [] (by simp)⟩, by simp⟩
    | cons a as =>
      cases hF : argmaxAbsF (colAt c (a :: as)) with
      | none =>
        rw [forwardAuxF_cons_none fuel hF] at hok
        exact absurd hok (by simp)
      | some i =>
        rw [forwardAuxF_cons_some fuel hF] at hok
        rw [forwardSafeF_cons_some fuel hF] at hsafe
        set rest := a :: as with hrest
        set p := rest.getD i [] with hpdef
        have hi : i < rest.length := by
          rw [← length_colAt c rest]
          exact argmaxAbsF_lt_length (by simp [colAt, hrest]) hF
        have hpmem : p ∈ rest := getDq_mem rest i [] hi
        by_cases h0 : getQ p c = 0
        · rw [if_pos h0] at hok
          rw [if_pos h0, Bool.and_eq_true] at hsafe
          obtain ⟨hcolb, hsafe'⟩ := hsafe
          have hcz : ∀ row ∈ rest, getQ row c = 0 := by
            intro row hrow
            have hmem : getQ row c ∈ colAt c rest :=
              List.mem_map_of_mem (fun row => getQ row c) hrow
            have hb := List.all_eq_true.mp hcolb _ hmem
            simpa using hb
          have hz' : ∀ r ∈ rest, ∀ j < c + 1, getQ r j = 0 := by
            intro r hr j hj
            rcases Nat.lt_or_ge j c with hjc | hjc
            · exact hz r hr j hjc
            · have : j = c := by omega
              subst this
              exact hcz r hr
          obtain ⟨⟨ps, hps⟩, hlen'⟩ :=
            ih (c + 1) rest n Y hlen hz' (by omega) hsafe' hok
          exact ⟨⟨ps, PEch_mono (Nat.le_succ c) hps⟩, hlen'⟩
        · rw [if_neg h0] at hok
          rw [if_neg h0] at hsafe
          set v := getQ p c with hvdef
          set rest2 := listSwap rest i with hr2def
          have hhead : rest2.headD [] = p := listSwap_headD hi
          set pr := rowDivFrom c v (rest2.headD []) with hprdef
          have hprP : pr = rowDivFrom c v p := by rw [hprdef, hhead]
          have hprlen : pr.length = n := by
            rw [hprP, length_rowDivFrom]
            exact hlen p hpmem
          have hprget : ∀ j, getQ pr j = if j < c then getQ p j else getQ p j / v := by
            intro j; rw [hprP]; exact getQ_rowDivFrom c v p j
          have hpr1 : getQ pr c = 1 := by
            rw [hprget c, if_neg (lt_irrefl c)]
            exact div_self h0
          have hpr0 : ∀ j < c, getQ pr j = 0 := by
            intro j hj
            rw [hprget j, if_pos hj]
            exact hz p hpmem j hj
          set M0 := rest2.tail.map (fun row => rowSubFrom c (getQ row c) pr row)
            with hM0def
          have hM0mem : ∀ r ∈ M0, ∃ row ∈ rest, r = rowSubFrom c (getQ row c) pr row := by
            intro r hr
            rw [hM0def] at hr
            obtain ⟨row, hrow, rfl⟩ := List.mem_map.mp hr
            exact ⟨row, listSwap_tail_mem hi hrow, rfl⟩
          have hM0len : ∀ r ∈ M0, r.length = n := by
            intro r hr
            obtain ⟨row, hrow, rfl⟩ := hM0mem r hr
            rw [length_rowSubFrom c _ pr row (by rw [hlen row hrow, hprlen])]
            exact hlen row hrow
          have hM0z : ∀ r ∈ M0, ∀ j < c + 1, getQ r j = 0 := by
            intro r hr j hj
            obtain ⟨row, hrow, rfl⟩ := hM0mem r hr
            rw [getQ_rowSubFrom c _ pr row (by rw [hlen row hrow, hprlen]) j]
            rcases Nat.lt_or_ge j c with hjc | hjc
            · rw [if_pos hjc]
              exact hz row hrow j hjc
            · have hjc' : c = j := by omega
              subst hjc'
              rw [if_neg (lt_irrefl c), hpr1, mul_one, sub_self]
          cases hrec : UsFusion.forwardAuxF fuel (c + 1) M0 with
          | none => rw [hrec] at hok; exact absurd hok (by simp)
          | some M1 =>
            rw [hrec] at hok
            simp only [Option.map_some'] at hok
            obtain rfl : pr :: M1 = Y := Option.some.inj hok
            obtain ⟨⟨ps', hps'⟩, hlen'⟩ :=
              ih (c + 1) M0 n M1 hM0len hM0z (by omega) hsafe hrec
            refine ⟨⟨c :: ps', ?_⟩, ?_⟩
            · exact PEch.step c c pr _ ps' (le_refl c) hpr1 hpr0
                (fun r hr j hj => PEch_zeroCols hps' r hr j (by omega)) hps'
            · intro r hr
              rcases List.mem_cons.mp hr with rfl | hr2
              · exact hprlen
              · exact hlen' r hr2

/-- The float-based elimination of any rectangular matrix, when it
returns and its forward scan is safe, is in reduced row echelon
structure, keeps the row width and keeps the number of rows. -/
theorem eliminateF_spec {X : Mat} {n : Nat} {Y : Mat}
    (hlen : ∀ r ∈ X, r.length = n)
    (hsafe : UsFusion.eliminateSafe X = true)
    (hok : UsFusion.eliminateF X = some Y) :
    (∃ ps, PRref 0 Y ps) ∧ (∀ r ∈ Y, r.length = n) ∧ Y.length = X.length := by
  cases X with
  | nil =>
    obtain rfl : ([] : Mat) = Y := Option.some.inj hok
    exact ⟨⟨[], PRref.zrows 0 [] (by simp)⟩, by simp, rfl⟩
  | cons a as =>
    have hnc : numCols (a :: as) = n := hlen a (List.mem_cons_self a as)
    have hok' : (UsFusion.forwardAuxF (numCols (a :: as)) 0 (a :: as)).map
        UsFusion.backward = some Y := hok
    cases hfwd : UsFusion.forwardAuxF (numCols (a :: as)) 0 (a :: as) with
    | none => rw [hfwd] at hok'; exact absurd hok' (by simp)
    | some F =>
      rw [hfwd] at hok'
      simp only [Option.map_some'] at hok'
      obtain rfl : UsFusion.backward F = Y := Option.some.inj hok'
      obtain ⟨⟨ps, hps⟩, hflen⟩ :=
        forwardAuxF_spec (numCols (a :: as)) 0 (a :: as) n F hlen
          (fun r _ j hj => absurd hj (Nat.not_lt_zero j))
          (by simp [hnc]) hsafe hfwd
      obtain ⟨hr, hrlen⟩ := backward_spec hps hflen
      refine ⟨⟨ps, hr⟩, hrlen, ?_⟩
      rw [length_backward, length_forwardAuxF (numCols (a :: as)) 0 _ F hfwd]

/-- The float-based forward elimination leaves a matrix in reduced row
echelon structure unchanged (and never raises on it: every scanned entry
is `0` or a leading `1`, which convert exactly). -/
theorem forward_idF {n : Nat} : ∀ (fuel : Nat) {c : Nat} {Y : Mat} {ps : List Nat},
    PRref c Y ps → (∀ r ∈ Y, r.length = n) → n ≤ c + fuel →
    UsFusion.forwardAuxF fuel c Y = some Y := by
  intro fuel
  induction fuel with
  | zero => intro c Y ps _ _ _; rfl
  | succ fuel ih =>
    intro c Y ps h hlen hn
    cases Y with
    | nil => rfl
    | cons a as =>
      rcases PRref_cases h with hz | ⟨pc, ps2, rfl, hc, hp1, hp0, hps, hrows, htail⟩
      · have hcolz : ∀ x ∈ colAt c (a :: as), x = 0 := by
          intro x hx
          obtain ⟨row, hrow, rfl⟩ := List.mem_map.mp hx
          exact hz row hrow c
        have hF : argmaxAbsF (colAt c (a :: as)) =
            some (argmaxAbs ((colAt c (a :: as)).map (fun _ => (0 : ℚ)))) :=
          argmaxAbsF_zeros hcolz
        rw [forwardAuxF_cons_some fuel hF]
        have h0 : getQ ((a :: as).getD
            (argmaxAbs ((colAt c (a :: as)).map (fun _ => (0 : ℚ)))) []) c = 0 := by
          rcases Nat.lt_or_ge
            (argmaxAbs ((colAt c (a :: as)).map (fun _ => (0 : ℚ))))
            (a :: as).length with hlt | hge
          · exact hz _ (getDq_mem _ _ [] hlt) c
          · rw [List.getD_eq_default _ _ hge]
            rfl
        rw [if_pos h0]
        exact ih (PRref.zrows (c + 1) (a :: as) hz) hlen (by omega)
      · rcases Nat.lt_or_ge c pc with hcpc | hcpc
        · have hcolz : ∀ x ∈ colAt c (a :: as), x = 0 := by
            intro x hx
            obtain ⟨row, hrow, rfl⟩ := List.mem_map.mp hx
            rcases List.mem_cons.mp hrow with rfl | hrow2
            · exact hp0 c hcpc
            · exact hrows row hrow2 c (le_of_lt hcpc)
          have hF : argmaxAbsF (colAt c (a :: as)) =
              some (argmaxAbs ((colAt c (a :: as)).map (fun _ => (0 : ℚ)))) :=
            argmaxAbsF_zeros hcolz
          rw [forwardAuxF_cons_some fuel hF]
          have h0 : getQ ((a :: as).getD
              (argmaxAbs ((colAt c (a :: as)).map (fun _ => (0 : ℚ)))) []) c = 0 := by
            rcases Nat.lt_or_ge
              (argmaxAbs ((colAt c (a :: as)).map (fun _ => (0 : ℚ))))
              (a :: as).length with hlt | hge
            · exact hcolz _ (List.mem_map_of_mem (fun row => getQ row c)
                (getDq_mem _ _ [] hlt))
            · rw [List.getD_eq_default _ _ hge]
              rfl
          rw [if_pos h0]
          exact ih (PRref.step (c + 1) pc a as ps2 hcpc hp1 hp0 hps hrows htail)
            hlen (by omega)
        · have hceq : c = pc := Nat.le_antisymm hc hcpc
          subst hceq
          have htailz : ∀ y ∈ colAt c as, y = 0 := by
            intro y hy
            obtain ⟨row, hrow, rfl⟩ := List.mem_map.mp hy
            exact hrows row hrow c (le_refl c)
          have hF : argmaxAbsF (colAt c (a :: as)) = some 0 := by
            show argmaxAbsF (getQ a c :: colAt c as) = some 0
            rw [hp1]
            exact argmaxAbsF_one_zeros htailz
          rw [forwardAuxF_cons_some fuel hF]
          simp only [List.getD_cons_zero]
          rw [hp1, if_neg one_ne_zero, listSwap_zero]
          simp only [List.headD_cons, List.tail_cons]
          rw [rowDivFrom_one]
          have hmapid : as.map (fun row => rowSubFrom c (getQ row c) a row) = as := by
            have hrid : ∀ row ∈ as, rowSubFrom c (getQ row c) a row = row := by
              intro row hrow
              rw [hrows row hrow c (le_refl c)]
              exact rowSubFrom_zero_coeff c a row
                (by rw [hlen row (List.mem_cons_of_mem a hrow),
                        hlen a (List.mem_cons_self a as)])
            calc as.map (fun row => rowSubFrom c (getQ row c) a row)
                = as.map id := List.map_congr_left (fun row hrow => hrid row hrow)
              _ = as := List.map_id as
          rw [hmapid,
            ih htail (fun r hr => hlen r (List.mem_cons_of_mem a hr)) (by omega)]
          rfl

/-- The float-based elimination returns its own output unchanged. -/
theorem eliminateF_of_prref {Y : Mat} {n : Nat} {ps : List Nat}
    (hps : PRref 0 Y ps) (hlen : ∀ r ∈ Y, r.length = n) :
    UsFusion.eliminateF Y = some Y := by
  cases Y with
  | nil => rfl
  | cons b bs =>
    have hnc : numCols (b :: bs) = n := hlen b (List.mem_cons_self b bs)
    show (UsFusion.forwardAuxF (numCols (b :: bs)) 0 (b :: bs)).map
      UsFusion.backward = some (b :: bs)
    rw [forward_idF (numCols (b :: bs)) hps hlen (by simp [hnc])]
    simp only [Option.map_some']
    rw [backward_id hps hlen]

theorem rowAbsSum_nonneg (row : List ℚ) : 0 ≤ UsFusion.rowAbsSum row := by
  refine List.sum_nonneg ?_
  intro x hx
  obtain ⟨y, _, rfl⟩ := List.mem_map.mp hx
  exact abs_nonneg y

theorem rowAbsSum_eq_zero_iff (row : List ℚ) :
    UsFusion.rowAbsSum row = 0 ↔ ∀ j, getQ row j = 0 := by
  induction row with
  | nil => simp [UsFusion.rowAbsSum, getQ_nil]
  | cons x xs ih =>
    have hx : (0 : ℚ) ≤ |x| := abs_nonneg x
    have hxs := rowAbsSum_nonneg xs
    have hsum : UsFusion.rowAbsSum (x :: xs) = |x| + UsFusion.rowAbsSum xs := by
      simp [UsFusion.rowAbsSum]
    rw [hsum, add_eq_zero_iff_of_nonneg hx hxs, abs_eq_zero, ih]
    constructor
    · rintro ⟨h1, h2⟩ j
      cases j with
      | zero => simpa [getQ_cons_zero] using h1
      | succ k => simpa [getQ_cons_succ] using h2 k
    · intro h
      exact ⟨by simpa [getQ_cons_zero] using h 0,
             fun j => by simpa [getQ_cons_succ] using h (j + 1)⟩

theorem mem_dsActualRows {Wp : Mat} {i : Nat} :
    i ∈ UsFusion.dsActualRows Wp ↔
      i < Wp.length ∧ UsFusion.rowAbsSum (Wp.getD i []) = 0 := by
  simp [UsFusion.dsActualRows, List.mem_filter, List.mem_range]

theorem dsActualRows_sorted (Wp : Mat) :
    (UsFusion.dsActualRows Wp).Pairwise (fun a b => a < b) := by
  exact List.Pairwise.sublist (List.filter_sublist _) (List.pairwise_lt_range _)

theorem matmul_length {A B C : Mat} (h : UsFusion.matmul A B = some C) :
    C.length = A.length := by
  unfold UsFusion.matmul at h
  split at h
  · exact absurd h (by simp)
  · obtain rfl := Option.some.inj h
    simp

/-! ### C1: the concrete three-atom scenario -/

/-- C1 counterexample: on the concrete scenario the statespace
determination keeps no output at all — in particular the total group
`{a,b,c}` (row 3 of `W0`) is dropped, contradicting the claim that it is
determined. -/
theorem C1_counterexample :
    (UsFusion._determine_statespace scenH0 scenW0).map
        (fun r => r.2.2) = some [] ∧
      ¬ 3 ∈ ((UsFusion._determine_statespace scenH0 scenW0).map
        (fun r => r.2.2)).getD [] := by
  constructor
  · decide
  · decide

/-- C1 amended: the scenario yields rank 1, but the set of determined
outputs is empty — every one of the four candidate outputs `{a}`, `{b}`,
`{c}`, `{a,b,c}` has a nonzero coefficient on the pseudo basis and is
dropped. -/
theorem C1_theorem :
    UsFusion.dsRank scenH0 = 1 ∧
      UsFusion._determine_statespace scenH0 scenW0 =
        some ([[1/2]], [], []) := by
  constructor
  · decide
  · decide

/-! ### C2: kept rows are exactly the zero rows of `W_pseudo` -/

/-- C2: whenever `_determine_statespace` succeeds, an output row index is
kept iff its row of `W_pseudo = W0 · Bi_pseudo` is the all-zero vector;
every excluded row has a nonzero `W_pseudo` entry, and `W` lists the kept
rows of `W_actual` in increasing (original) row order. -/
theorem C2_theorem (H0 W0 H W : Mat) (rows : List Nat)
    (h : UsFusion._determine_statespace H0 W0 = some (H, W, rows)) :
    ∃ WA WP, UsFusion.dsWactual H0 W0 = some WA ∧
      UsFusion.dsWpseudo H0 W0 = some WP ∧
      WP.length = W0.length ∧
      (∀ i, i ∈ rows ↔ i < WP.length ∧ ∀ j, getQ (WP.getD i []) j = 0) ∧
      (∀ i, i < WP.length → i ∉ rows → ∃ j, getQ (WP.getD i []) j ≠ 0) ∧
      W = rows.map (fun i => WA.getD i []) ∧
      rows.Pairwise (fun a b => a < b) := by
  unfold UsFusion._determine_statespace at h
  rcases hH : UsFusion.matmul H0 (UsFusion.dsBiActual H0) with _ | Hv <;>
    rw [hH] at h
  · exact absurd h (by simp)
  rcases hWA : UsFusion.dsWactual H0 W0 with _ | WA <;> rw [hWA] at h
  · exact absurd h (by simp)
  rcases hWP : UsFusion.dsWpseudo H0 W0 with _ | WP <;> rw [hWP] at h
  · exact absurd h (by simp)
  simp only [Option.some.injEq, Prod.mk.injEq] at h
  obtain ⟨hHv, hW, hrows⟩ := h
  refine ⟨WA, WP, rfl, rfl, ?_, ?_, ?_, ?_, ?_⟩
  · exact matmul_length hWP ▸ rfl
  · intro i
    rw [← hrows, mem_dsActualRows, rowAbsSum_eq_zero_iff]
  · intro i hi hmem
    by_contra hc
    push_neg at hc
    exact hmem (by
      rw [← hrows, mem_dsActualRows, rowAbsSum_eq_zero_iff]
      exact ⟨hi, hc⟩)
  · rw [← hW, ← hrows]
  · rw [← hrows]; exact dsActualRows_sorted WP

/-- C2 witness: a concrete run with `H0 = [[1,0]]`,
`W0 = [[1,0],[0,1]]`. -/
theorem C2_witness :
    ∃ WA WP, UsFusion.dsWactual [[1, 0]] [[1, 0], [0, 1]] = some WA ∧
      UsFusion.dsWpseudo [[1, 0]] [[1, 0], [0, 1]] = some WP ∧
      WP.length = ([[1, 0], [0, 1]] : Mat).length ∧
      (∀ i, i ∈ [0] ↔ i < WP.length ∧ ∀ j, getQ (WP.getD i []) j = 0) ∧
      (∀ i, i < WP.length → i ∉ [0] → ∃ j, getQ (WP.getD i []) j ≠ 0) ∧
      ([[1]] : Mat) = [0].map (fun i => WA.getD i []) ∧
      ([0] : List Nat).Pairwise (fun a b => a < b) :=
  C2_theorem [[1, 0]] [[1, 0], [0, 1]] [[1]] [[1]] [0] (by decide)

/-! ### C5: reduced row echelon postcondition of the elimination -/

set_option maxRecDepth 100000 in
set_option exponentiation.threshold 1500 in
/-- C5 counterexample: under the float-based pivot selection of the
source, the entry `tinyQ = 10 ^ (-400)` converts to float `0.0`, so on
`uflowX2 = [[0, 1], [tinyQ, 0]]` the scan of column 0 sees only float
zeros and skips the column; the elimination returns its input unchanged,
whose second row is nonzero with leading entry `tinyQ ≠ 1` — the
unrestricted reduced-row-echelon postcondition fails (and the safety
predicate records the defeated scan). -/
theorem C5_counterexample :
    UsFusion.eliminateF uflowX2 = some uflowX2 ∧
      UsFusion.leadIdx (uflowX2.getD 1 []) = some 0 ∧
      getQ (uflowX2.getD 1 []) 0 ≠ 1 ∧
      UsFusion.eliminateSafe uflowX2 = false :=
  ⟨by decide, by decide, by decide, by decide⟩

/-- C5 (amended): for every rectangular matrix of exact rationals on
which the elimination returns (no float conversion overflows) and whose
forward scan is safe — no column holding a nonzero entry is skipped
because every entry of the scanned column underflowed to float zero —
each row of the result that is not all zero has a leading (leftmost
nonzero) entry exactly equal to 1, its column is exactly zero in every
other row, and so that column is distinct from every other row's leading
column. -/
theorem C5_theorem (X : Mat) (n : Nat) (Y : Mat)
    (hlen : ∀ r ∈ X, r.length = n)
    (hsafe : UsFusion.eliminateSafe X = true)
    (hok : UsFusion.eliminateF X = some Y) :
    ∀ i, i < Y.length → (∃ j, getQ (Y.getD i []) j ≠ 0) →
      ∃ pc, getQ (Y.getD i []) pc = 1 ∧
        (∀ j < pc, getQ (Y.getD i []) j = 0) ∧
        (∀ k, k < Y.length → k ≠ i → getQ (Y.getD k []) pc = 0) ∧
        ∀ k, k < Y.length → k ≠ i →
          UsFusion.leadIdx (Y.getD k []) ≠ some pc := by
  obtain ⟨⟨ps, hps⟩, hlens, hcount⟩ := eliminateF_spec hlen hsafe hok
  intro i hi hnz
  obtain ⟨pc, hmem, h1, h0, hother⟩ := PRref_rows_property hps i hi hnz
  refine ⟨pc, h1, h0, hother, ?_⟩
  intro k hk hki hlead
  exact leadIdx_some_nonzero hlead (hother k hk hki)

set_option maxRecDepth 100000 in
set_option exponentiation.threshold 1500 in
/-- C5 witness: `[[0, 2], [1, 1]]` converts to float without loss, its
scan is safe, it eliminates to the identity, and the theorem applies at
row 0: the leading 1 sits in a column zero in the other row. -/
theorem C5_witness :
    (∀ r ∈ ([[0, 2], [1, 1]] : Mat), r.length = 2) ∧
      UsFusion.eliminateSafe [[0, 2], [1, 1]] = true ∧
      UsFusion.eliminateF [[0, 2], [1, 1]] = some [[1, 0], [0, 1]] ∧
      (0 < ([[1, 0], [0, 1]] : Mat).length ∧
        getQ (([[1, 0], [0, 1]] : Mat).getD 0 []) 0 ≠ 0) ∧
      ∃ pc, getQ (([[1, 0], [0, 1]] : Mat).getD 0 []) pc = 1 ∧
        (∀ j < pc, getQ (([[1, 0], [0, 1]] : Mat).getD 0 []) j = 0) ∧
        (∀ k, k < ([[1, 0], [0, 1]] : Mat).length → k ≠ 0 →
          getQ (([[1, 0], [0, 1]] : Mat).getD k []) pc = 0) ∧
        ∀ k, k < ([[1, 0], [0, 1]] : Mat).length → k ≠ 0 →
          UsFusion.leadIdx (([[1, 0], [0, 1]] : Mat).getD k []) ≠ some pc :=
  ⟨by decide, by decide, by decide, ⟨by decide, by decide⟩,
    C5_theorem [[0, 2], [1, 1]] 2 [[1, 0], [0, 1]] (by decide) (by decide)
      (by decide) 0 (by decide) ⟨0, by decide⟩⟩

/-! ### C6: idempotence of the elimination -/

set_option maxRecDepth 100000 in
set_option exponentiation.threshold 1500 in
/-- C6 counterexample: on `uflowX3` the tiny entry survives the
elimination as a nonzero non-pivot entry (the scan of its column saw only
float zeros), and each application's backward pass subtracts it from row
0 anew: the first application yields entry `1 - tinyQ` at `(0, 1)`, the
second `(1 - tinyQ) ^ 2` — applying the elimination twice does not yield
the same matrix as applying it once. -/
theorem C6_counterexample :
    UsFusion.eliminateF uflowX3 = some uflowX3a ∧
      UsFusion.eliminateF uflowX3a = some uflowX3b ∧
      uflowX3a ≠ uflowX3b :=
  ⟨by decide, by decide, by decide⟩

/-- C6 (amended): the elimination is idempotent on every rectangular
matrix of exact rationals on which it returns and whose forward scan is
safe (no nonzero column skipped through float underflow): a second
application returns the first application's result unchanged. -/
theorem C6_theorem (X : Mat) (n : Nat) (Y : Mat)
    (hlen : ∀ r ∈ X, r.length = n)
    (hsafe : UsFusion.eliminateSafe X = true)
    (hok : UsFusion.eliminateF X = some Y) :
    UsFusion.eliminateF Y = some Y := by
  obtain ⟨⟨ps, hps⟩, hlens, _⟩ := eliminateF_spec hlen hsafe hok
  exact eliminateF_of_prref hps hlens

set_option maxRecDepth 100000 in
set_option exponentiation.threshold 1500 in
/-- C6 witness: the rank-deficient matrix `[[2, 4], [1, 2]]` scans
safely and eliminates to `[[1, 2], [0, 0]]`; a second application
returns that result unchanged. -/
theorem C6_witness :
    (∀ r ∈ ([[2, 4], [1, 2]] : Mat), r.length = 2) ∧
      UsFusion.eliminateSafe [[2, 4], [1, 2]] = true ∧
      UsFusion.eliminateF [[2, 4], [1, 2]] = some [[1, 2], [0, 0]] ∧
      UsFusion.eliminateF [[1, 2], [0, 0]] = some [[1, 2], [0, 0]] :=
  ⟨by decide, by decide, by decide,
    C6_theorem [[2, 4], [1, 2]] 2 [[1, 2], [0, 0]] (by decide) (by decide)
      (by decide)⟩

/-! ### C3: candidate output groups under exclusions -/

/-- C3 counterexample: with `exclude_locations = ["ca"]`, the code keeps
`hhs9` among the candidate outputs even though its member atom `ca` is
excluded — the filter tests only the group's own identifier, so the
candidate list differs from "every group minus any whose members are
excluded". -/
theorem C3_counterexample :
    UsFusion.allLocationsOf ["ca"] ≠
        Locations.region_list.filter (fun g =>
          ((Locations.region_map.lookup g).getD []).all
            (fun m => !((["ca"] : List String).contains m))) ∧
      "hhs9" ∈ UsFusion.allLocationsOf ["ca"] ∧
      "ca" ∈ (Locations.region_map.lookup "hhs9").getD [] := by
  exact ⟨by decide, by decide, by decide⟩

/-- C3 amended: the candidate output list equals every known group whose
own identifier is not excluded (membership is not consulted), preserving
canonical order. -/
theorem C3_theorem (exclude_locations : List String) :
    (∀ g, g ∈ UsFusion.allLocationsOf exclude_locations ↔
        g ∈ Locations.region_list ∧ g ∉ exclude_locations) ∧
      (UsFusion.allLocationsOf exclude_locations).Sublist
        Locations.region_list := by
  constructor
  · intro g
    simp [UsFusion.allLocationsOf, UsFusion.atomFilter, List.mem_filter]
  · exact List.filter_sublist _

/-! ### C10: season truthiness and clamping in the weight rows -/

/-- C10: a falsy season (`None` or `0`) makes `get_weight_row` use the
most recent year's population weights, a truthy season is passed through
and clamped into the table's year range, and the season-`0` row really is
the most-recent-year row, different from the earliest-year row. -/
theorem C10_theorem (location : String) (atoms : List String) (s : Int)
    (hs : s ≠ 0) :
    UsFusion.get_weight_row location none atoms =
        UsFusion.get_weight_row_year location last_season atoms ∧
      UsFusion.get_weight_row location (some 0) atoms =
        UsFusion.get_weight_row_year location last_season atoms ∧
      UsFusion.get_weight_row location (some s) atoms =
        UsFusion.get_weight_row_year location s atoms ∧
      (∀ loc y, y ≤ first_season →
        get_population_weight loc y = get_population_weight loc first_season) ∧
      (∀ loc y, last_season ≤ y →
        get_population_weight loc y = get_population_weight loc last_season) ∧
      UsFusion.get_weight_row "ny" (some 0) ["jfk", "ny_minus_jfk"] =
        UsFusion.get_weight_row_year "ny" 2017 ["jfk", "ny_minus_jfk"] ∧
      UsFusion.get_weight_row "ny" (some 0) ["jfk", "ny_minus_jfk"] ≠
        UsFusion.get_weight_row_year "ny" 2010 ["jfk", "ny_minus_jfk"] := by
  have hf : first_season = 2010 := by decide
  have hl : last_season = 2017 := by decide
  refine ⟨rfl, rfl, ?_, ?_, ?_, by decide, by decide⟩
  · have ht : seasonTruthy (some s) = true := by simp [seasonTruthy, hs]
    unfold UsFusion.get_weight_row UsFusion.get_weight_row_year
    simp only [ht, if_true, Option.getD_some]
  · intro loc y hy
    unfold get_population_weight
    rw [hf] at hy ⊢
    rw [hl]
    congr 1
    omega
  · intro loc y hy
    unfold get_population_weight
    rw [hl] at hy ⊢
    rw [hf]
    congr 1
    omega

/-- C10 witness: a concrete location, atom list and truthy out-of-range
season. -/
theorem C10_witness :
    (1995 : Int) ≠ 0 ∧
      (UsFusion.get_weight_row "ny" none ["jfk", "ny_minus_jfk"] =
          UsFusion.get_weight_row_year "ny" last_season ["jfk", "ny_minus_jfk"] ∧
        UsFusion.get_weight_row "ny" (some 0) ["jfk", "ny_minus_jfk"] =
          UsFusion.get_weight_row_year "ny" last_season ["jfk", "ny_minus_jfk"] ∧
        UsFusion.get_weight_row "ny" (some 1995) ["jfk", "ny_minus_jfk"] =
          UsFusion.get_weight_row_year "ny" 1995 ["jfk", "ny_minus_jfk"] ∧
        (∀ loc y, y ≤ first_season →
          get_population_weight loc y = get_population_weight loc first_season) ∧
        (∀ loc y, last_season ≤ y →
          get_population_weight loc y = get_population_weight loc last_season) ∧
        UsFusion.get_weight_row "ny" (some 0) ["jfk", "ny_minus_jfk"] =
          UsFusion.get_weight_row_year "ny" 2017 ["jfk", "ny_minus_jfk"] ∧
        UsFusion.get_weight_row "ny" (some 0) ["jfk", "ny_minus_jfk"] ≠
          UsFusion.get_weight_row_year "ny" 2010 ["jfk", "ny_minus_jfk"]) :=
  ⟨by decide, C10_theorem "ny" ["jfk", "ny_minus_jfk"] 1995 (by decide)⟩

/-! ### C8: the fast path when inputs cover every atom -/

/-- C8: whenever the exclusions are disjoint from the inputs, both weight
matrices build successfully, and the input identifiers cover every
remaining atom, `determine_statespace` takes the fast path and returns
`H0`, `W0` and the full candidate list unchanged (the float cast at the
boundary being the identity on the exact values), with no elimination
performed. -/
theorem C8_theorem (input_locations : List String) (season : Option Int)
    (exclude_locations : List String) (H0 W0 : Mat)
    (hdisj : ¬ ∃ a ∈ exclude_locations, a ∈ input_locations)
    (hcover : ∀ a ∈ UsFusion.atomsOf exclude_locations, a ∈ input_locations)
    (hH0 : UsFusion.get_weight_matrix input_locations season
      (UsFusion.atomsOf exclude_locations) = .ok H0)
    (hW0 : UsFusion.get_weight_matrix (UsFusion.allLocationsOf exclude_locations)
      season (UsFusion.atomsOf exclude_locations) = .ok W0) :
    UsFusion.determine_statespace input_locations season exclude_locations =
      .ok (H0, W0, UsFusion.allLocationsOf exclude_locations) := by
  have hov : exclude_locations.any (fun a => input_locations.contains a) = false := by
    rw [List.any_eq_false]
    intro a ha
    by_contra hc
    exact hdisj ⟨a, ha, by simpa using hc⟩
  have hall : (UsFusion.atomsOf exclude_locations).all
      (fun a => input_locations.contains a) = true := by
    rw [List.all_eq_true]
    intro a ha
    simpa using hcover a ha
  unfold UsFusion.determine_statespace
  simp only [hov, Bool.false_eq_true, if_false, hH0, hW0, hall, if_true]

/-- C8 witness: with everything but `nat`, `ak`, `al` excluded and the
two atoms as inputs, the fast path returns the two weight matrices and
the three candidate groups unchanged. -/
theorem C8_witness :
    ∃ H0 W0,
      UsFusion.get_weight_matrix ["ak", "al"] none
          (UsFusion.atomsOf exclAllButNatAkAl) = .ok H0 ∧
        UsFusion.get_weight_matrix (UsFusion.allLocationsOf exclAllButNatAkAl)
          none (UsFusion.atomsOf exclAllButNatAkAl) = .ok W0 ∧
        UsFusion.determine_statespace ["ak", "al"] none exclAllButNatAkAl =
          .ok (H0, W0, UsFusion.allLocationsOf exclAllButNatAkAl) := by
  refine ⟨_, _, rfl, rfl, ?_⟩
  exact C8_theorem ["ak", "al"] none exclAllButNatAkAl _ _
    (by decide) (by decide) rfl rfl

/-! ### C9: overlap check fails fast, before matrices and cache -/

theorem determine_statespace_overlap {input_locations : List String}
    {season : Option Int} {exclude_locations : List String}
    (hov : ∃ a ∈ exclude_locations, a ∈ input_locations) :
    UsFusion.determine_statespace input_locations season exclude_locations =
      .error .overlap := by
  obtain ⟨a, ha, hb⟩ := hov
  unfold UsFusion.determine_statespace
  rw [if_pos]
  rw [List.any_eq_true]
  exact ⟨a, ha, by simpa using hb⟩

/-- Keys cached by one step keep the no-overlap invariant: an overlapping
query errors and an error is never cached. -/
theorem cached_state_no_overlap (st : List (UsFusion.DsKey × UsFusion.DsVal))
    (hst : ∀ e ∈ st, ¬ ∃ a ∈ e.1.2.2, a ∈ e.1.1) (k : UsFusion.DsKey) :
    ∀ e ∈ (UsFusion.determine_statespace_cached st k.1 k.2.1 k.2.2).2.1,
      ¬ ∃ a ∈ e.1.2.2, a ∈ e.1.1 := by
  intro e he
  unfold UsFusion.determine_statespace_cached at he
  rcases hf : st.find? (fun e2 => decide (e2.1 = (k.1, k.2.1, k.2.2))) with _ | e0
  all_goals rw [hf] at he
  · rcases hd : UsFusion.determine_statespace k.1 k.2.1 k.2.2 with err | v
    all_goals rw [hd] at he
    · exact hst e he
    · have he2 : e ∈ ((k.1, k.2.1, k.2.2), v) :: st :=
        (List.take_sublist 16 _).subset he
      rcases List.mem_cons.mp he2 with rfl | he3
      · intro hc
        rw [determine_statespace_overlap hc] at hd
        exact absurd hd (by simp)
      · exact hst e he3
  · rcases List.mem_cons.mp he with rfl | he3
    · have he0 : e0 ∈ st := List.mem_of_find?_eq_some hf
      have hk : e0.1 = (k.1, k.2.1, k.2.2) := by
        have := List.find?_some hf
        simpa using this
      have := hst e0 he0
      rw [hk] at this
      simpa using this
    · exact hst e (List.mem_of_mem_filter he3)

theorem runCallsFrom_no_overlap (ks : List UsFusion.DsKey) :
    ∀ st, (∀ e ∈ st, ¬ ∃ a ∈ e.1.2.2, a ∈ e.1.1) →
      ∀ e ∈ UsFusion.runCallsFrom st ks, ¬ ∃ a ∈ e.1.2.2, a ∈ e.1.1 := by
  induction ks with
  | nil => intro st hst; exact hst
  | cons k ks ih =>
    intro st hst
    exact ih _ (cached_state_no_overlap st hst k)

/-- C9: a query whose exclusions overlap its inputs fails with the
overlap error from any cache state reachable by a sequence of calls, and
the cache state is unchanged — the error is raised before any weight
matrix is built or any cache entry is written. -/
theorem C9_theorem (ks : List UsFusion.DsKey) (input_locations : List String)
    (season : Option Int) (exclude_locations : List String)
    (hov : ∃ a ∈ exclude_locations, a ∈ input_locations) :
    UsFusion.determine_statespace_cached (UsFusion.runCalls ks)
        input_locations season exclude_locations =
      (.error .overlap, UsFusion.runCalls ks, false) := by
  have hst : ∀ e ∈ UsFusion.runCalls ks, ¬ ∃ a ∈ e.1.2.2, a ∈ e.1.1 :=
    runCallsFrom_no_overlap ks [] (by simp)
  unfold UsFusion.determine_statespace_cached
  rcases hf : (UsFusion.runCalls ks).find?
      (fun e2 => decide (e2.1 = (input_locations, season, exclude_locations))) with _ | e0
  · rw [hf, determine_statespace_overlap hov]
  · exfalso
    have he0 : e0 ∈ UsFusion.runCalls ks := List.mem_of_find?_eq_some hf
    have hk : e0.1 = (input_locations, season, exclude_locations) := by
      have := List.find?_some hf
      simpa using this
    have := hst e0 he0
    rw [hk] at this
    exact this hov

/-- C9 witness: overlapping inputs and exclusions on the empty cache. -/
theorem C9_witness :
    UsFusion.determine_statespace_cached (UsFusion.runCalls []) ["ca"] none
        ["ca"] =
      (.error .overlap, UsFusion.runCalls [], false) :=
  C9_theorem [] ["ca"] none ["ca"] ⟨"ca", by decide, by decide⟩

/-! ### C4: the cache is a bounded LRU cache, not unbounded -/

/-- C4 counterexample: after seventeen distinct successfully-computed
queries, the first key has been evicted from the 16-entry cache, and
repeating it is a cache miss that recomputes (served-from-cache flag is
`false`). -/
theorem C4_counterexample :
    (UsFusion.determine_statespace_cached (UsFusion.runCalls c4Keys)
        ["ak", "al"] (some 1) exclAllButNatAkAl).2.2 = false ∧
      (UsFusion.runCalls c4Keys).find?
        (fun e => decide (e.1 = (["ak", "al"], some (1 : Int),
          exclAllButNatAkAl))) = none ∧
      (UsFusion.runCalls c4Keys).length = 16 := by
  exact ⟨by decide, by decide, by decide⟩

theorem length_cached_state (st : List (UsFusion.DsKey × UsFusion.DsVal))
    (hst : st.length ≤ 16) (k : UsFusion.DsKey) :
    (UsFusion.determine_statespace_cached st k.1 k.2.1 k.2.2).2.1.length ≤ 16 := by
  unfold UsFusion.determine_statespace_cached
  split
  · rename_i e0 hf
    have he0 : e0 ∈ st := List.mem_of_find?_eq_some hf
    have hk := List.find?_some hf
    simp only [decide_eq_true_eq] at hk
    have hlt : (st.filter (fun e2 =>
        !decide (e2.1 = (k.1, k.2.1, k.2.2)))).length < st.length := by
      rw [List.length_filter_lt_length_iff_exists]
      exact ⟨e0, he0, by simp [hk]⟩
    simp only [List.length_cons]
    omega
  · split
    · exact hst
    · exact List.length_take_le 16 _

theorem runCallsFrom_length_le (ks : List UsFusion.DsKey) :
    ∀ st, st.length ≤ 16 → (UsFusion.runCallsFrom st ks).length ≤ 16 := by
  induction ks with
  | nil => intro st hst; exact hst
  | cons k ks ih =>
    intro st hst
    exact ih _ (length_cached_state st hst k)

/-- C4 amended: the memoisation layer is a bounded LRU cache of capacity
16: while a key's entry is retained, an identical query returns the
cached value without recomputation (and promotes the entry), but the
cache never holds more than 16 entries, so an entry can be evicted and a
later identical query recomputed. -/
theorem C4_theorem (st : List (UsFusion.DsKey × UsFusion.DsVal))
    (input_locations : List String) (season : Option Int)
    (exclude_locations : List String) (e : UsFusion.DsKey × UsFusion.DsVal)
    (hfind : st.find? (fun e2 =>
      decide (e2.1 = (input_locations, season, exclude_locations))) = some e) :
    UsFusion.determine_statespace_cached st input_locations season
        exclude_locations =
      (.ok e.2, ((input_locations, season, exclude_locations), e.2) ::
        st.filter (fun e2 =>
          !decide (e2.1 = (input_locations, season, exclude_locations))),
        true) ∧
      ∀ ks : List UsFusion.DsKey, (UsFusion.runCalls ks).length ≤ 16 := by
  constructor
  · unfold UsFusion.determine_statespace_cached
    rw [hfind]
  · intro ks
    exact runCallsFrom_length_le ks [] (by simp)

/-- C4 witness: a cache hit on a one-entry state. -/
theorem C4_witness :
    UsFusion.determine_statespace_cached
        [((["ca"], none, []), ([[1]], [[1]], ["nat"]))] ["ca"] none [] =
      (.ok ([[1]], [[1]], ["nat"]),
        ((["ca"], none, ([] : List String)), ([[1]], [[1]], ["nat"])) ::
          List.filter (fun e2 =>
            !decide (e2.1 = (["ca"], none, ([] : List String))))
            [((["ca"], none, []), ([[1]], [[1]], ["nat"]))],
        true) ∧
      ∀ ks : List UsFusion.DsKey, (UsFusion.runCalls ks).length ≤ 16 :=
  C4_theorem [((["ca"], none, []), ([[1]], [[1]], ["nat"]))] ["ca"] none []
    ((["ca"], none, []), ([[1]], [[1]], ["nat"])) (by decide)

/-! ### C7: weight rows sum to one — when they are returned at all -/

/-- C7 counterexample: the 2010 population-weight table has no entry for
`pr`, so the national weight row over `["ca", "pr"]` for season 2010
raises a `KeyError` instead of returning a row — even though the member
atom `ca` has nonzero population weight, satisfying the claim's
hypothesis. -/
theorem C7_counterexample :
    UsFusion.get_weight_row "nat" (some 2010) ["ca", "pr"] =
        .error (.keyError "pr") ∧
      "ca" ∈ (Locations.region_map.lookup "nat").getD [] ∧
      "pr" ∈ (Locations.region_map.lookup "nat").getD [] ∧
      (∃ w, get_population_weight "ca" (effYear (some 2010)) = some w ∧
        w ≠ 0) := by
  refine ⟨by decide, by decide, by decide, ⟨0.12039274, by decide, by decide⟩⟩

theorem lookup_mem {α β : Type} [BEq α] [LawfulBEq α] {l : List (α × β)}
    {k : α} {v : β} (h : List.lookup k l = some v) : (k, v) ∈ l := by
  induction l with
  | nil => simp [List.lookup] at h
  | cons e l ih =>
    rcases e with ⟨k1, v1⟩
    by_cases hk : (k == k1)
    · simp only [List.lookup, hk] at h
      obtain rfl := Option.some.inj h
      have : k = k1 := eq_of_beq hk
      subst this
      exact List.mem_cons_self _ _
    · simp only [List.lookup, Bool.not_eq_true] at h
      rw [Bool.of_not_eq_true hk] at h
      exact List.mem_cons_of_mem _ (ih h)

/-- Every weight in the table is at least `1/10000` (the smallest entry is
`vi` at about `3.2e-4`). -/
theorem population_weights_min :
    ∀ e ∈ population_weights, ∀ p ∈ e.2, (1 / 10000 : ℚ) ≤ p.2 := by decide

theorem get_population_weight_mem {loc : String} {y : Int} {w : ℚ}
    (h : get_population_weight loc y = some w) :
    ∃ e ∈ population_weights, (loc, w) ∈ e.2 := by
  unfold get_population_weight lookupWeight at h
  rcases ht : population_weights.lookup (max (min y last_season) first_season)
    with _ | tbl
  all_goals rw [ht] at h
  · exact absurd h (by simp)
  · exact ⟨(max (min y last_season) first_season, tbl), lookup_mem ht,
      lookup_mem h⟩

theorem get_population_weight_min {loc : String} {y : Int} {w : ℚ}
    (h : get_population_weight loc y = some w) : (1 / 10000 : ℚ) ≤ w := by
  obtain ⟨e, he, hm⟩ := get_population_weight_mem h
  exact population_weights_min e he (loc, w) hm

theorem pyRound_bounds (q : ℚ) : ⌊q⌋ ≤ pyRound q ∧ pyRound q ≤ ⌊q⌋ + 1 := by
  unfold pyRound
  split
  · omega
  · split
    · omega
    · split <;> omega

theorem pyRound_pos {q : ℚ} (h : (1 : ℚ) ≤ q) : 1 ≤ pyRound q := by
  have hb := (pyRound_bounds q).1
  have hf : 1 ≤ ⌊q⌋ := Int.le_floor.mpr (by exact_mod_cast h)
  omega

theorem get_population_pos {a : String} {y : Int} {p : Int}
    (h : get_population a y = some p) : 1 ≤ p := by
  unfold get_population at h
  rcases hw : get_population_weight a y with _ | w
  all_goals rw [hw] at h
  · exact absurd h (by simp)
  · obtain rfl := Option.some.inj (by simpa using h)
    refine pyRound_pos ?_
    have hmin := get_population_weight_min hw
    calc (1 : ℚ) ≤ (1 / 10000) * 325000000 := by norm_num
      _ ≤ w * 325000000 := by
          exact mul_le_mul_of_nonneg_right hmin (by norm_num)

/-- The per-atom population expression of `get_weight_row` consults the
year `effYear season`. -/
theorem season_population (atom : String) (season : Option Int) :
    (if seasonTruthy season then get_population atom (season.getD 0)
     else get_population atom last_season) =
      get_population atom (effYear season) := by
  unfold effYear
  by_cases h : seasonTruthy season <;> simp [h]

theorem mapM_ok_of_forall {α β : Type} (f : α → Except FusionError β)
    (g : α → β) (l : List α) (h : ∀ a ∈ l, f a = .ok (g a)) :
    l.mapM f = .ok (l.map g) := by
  induction l with
  | nil => rfl
  | cons x xs ih =>
    rw [List.mapM_cons, h x (List.mem_cons_self x xs),
      ih (fun a ha => h a (List.mem_cons_of_mem _ ha))]
    rfl

theorem intCast_list_sum (l : List Int) :
    ((l.sum : Int) : ℚ) = (l.map (fun (p : Int) => (p : ℚ))).sum := by
  induction l with
  | nil => simp
  | cons x xs ih => simp [ih]

theorem list_sum_div (l : List ℚ) (T : ℚ) :
    (l.map (fun x => x / T)).sum = l.sum / T := by
  induction l with
  | nil => simp
  | cons x xs ih => simp [ih, add_div]

theorem getD_map_lt {α β : Type} (f : α → β) (l : List α) (i : Nat) (d : α)
    (d2 : β) (h : i < l.length) : (l.map f).getD i d2 = f (l.getD i d) := by
  rw [List.getD_eq_getElem?_getD, List.getElem?_eq_getElem (by simpa using h),
    List.getElem_map, List.getD_eq_getElem?_getD, List.getElem?_eq_getElem h]
  rfl

theorem weight_entry_zero (pops : List Int) (T : ℚ) (i : Nat)
    (h : i < pops.length) (hz : pops.getD i 0 = 0) :
    (pops.map (fun (pop : Int) => (pop : ℚ) / T)).getD i 0 = 0 := by
  rw [getD_map_lt _ pops i 0 0 h, hz]
  simp

theorem weight_row_sum (pops : List Int) (h : ((pops.sum : Int) : ℚ) ≠ 0) :
    (pops.map (fun (pop : Int) =>
      (pop : ℚ) / ((pops.sum : Int) : ℚ))).sum = 1 := by
  have h2 : pops.map (fun (pop : Int) => (pop : ℚ) / ((pops.sum : Int) : ℚ)) =
      (pops.map (fun (p : Int) => (p : ℚ))).map
        (fun x => x / ((pops.sum : Int) : ℚ)) := by
    rw [List.map_map]
    rfl
  rw [h2, list_sum_div]
  rw [show (pops.map (fun (p : Int) => (p : ℚ))).sum = ((pops.sum : Int) : ℚ)
    from (intCast_list_sum pops).symm]
  exact div_self h

/-- C7 amended: for every group with a member atom among the atoms, and a
season under which every member atom appearing in the atoms list has a
population-weight entry (this fails only for `pr`/`vi` before 2013), the
weight row is returned, has one exact rational per atom, zero at atoms
outside the membership, and sums to exactly 1. -/
theorem C7_theorem (location : String) (season : Option Int)
    (atoms : List String) (members : List String)
    (hmem : Locations.region_map.lookup location = some members)
    (hall : ∀ a ∈ atoms, a ∈ members →
      (get_population a (effYear season)).isSome = true)
    (hpos : ∃ a ∈ atoms, a ∈ members ∧
      ∃ w, get_population_weight a (effYear season) = some w ∧ w ≠ 0) :
    ∃ row : List ℚ, UsFusion.get_weight_row location season atoms = .ok row ∧
      row.length = atoms.length ∧
      (∀ i, i < atoms.length → atoms.getD i "" ∉ members →
        row.getD i 0 = 0) ∧
      row.sum = 1 := by
  have hfueq : ∀ a ∈ atoms,
      (if a ∈ members then
        match (if seasonTruthy season then get_population a (season.getD 0)
               else get_population a last_season) with
        | none => Except.error (FusionError.keyError a)
        | some population => Except.ok population
      else Except.ok 0) =
        Except.ok (if a ∈ members then
          (get_population a (effYear season)).getD 0 else 0) := by
    intro a ha
    by_cases hm : a ∈ members
    · rw [if_pos hm, if_pos hm, season_population]
      rcases hs : get_population a (effYear season) with _ | p
      · have := hall a ha hm
        rw [hs] at this
        exact absurd this (by simp)
      · simp
    · rw [if_neg hm, if_neg hm]
  have hmap := mapM_ok_of_forall _
    (fun a => if a ∈ members then (get_population a (effYear season)).getD 0
      else 0) atoms hfueq
  set pops : List Int := atoms.map (fun a =>
    if a ∈ members then (get_population a (effYear season)).getD 0 else 0)
    with hpops
  have hnn : ∀ p ∈ pops, (0 : Int) ≤ p := by
    intro p hp
    rw [hpops] at hp
    obtain ⟨a, _, rfl⟩ := List.mem_map.mp hp
    by_cases hm : a ∈ members
    · simp only [hm, if_true]
      rcases hgp : get_population a (effYear season) with _ | q
      · simp
      · simp only [Option.getD_some]
        exact le_trans (by norm_num) (get_population_pos hgp)
    · simp [hm]
  obtain ⟨a0, ha0, hm0, w, hw, _⟩ := hpos
  have hsome0 : (get_population a0 (effYear season)).isSome = true :=
    hall a0 ha0 hm0
  rcases hgp0 : get_population a0 (effYear season) with _ | p0
  · rw [hgp0] at hsome0; exact absurd hsome0 (by simp)
  have hp0 : 1 ≤ p0 := get_population_pos hgp0
  have hmem0 : ((1 : Int) : Int) ≤ pops.sum := by
    have hin : (if a0 ∈ members then
        (get_population a0 (effYear season)).getD 0 else 0) ∈ pops := by
      rw [hpops]
      exact List.mem_map.mpr ⟨a0, ha0, rfl⟩
    have hval : (if a0 ∈ members then
        (get_population a0 (effYear season)).getD 0 else 0) = p0 := by
      rw [if_pos hm0, hgp0, Option.getD_some]
    have := List.single_le_sum hnn _ hin
    rw [hval] at this
    omega
  have htot : pops.sum ≠ 0 := by omega
  have htotQ : ((pops.sum : Int) : ℚ) ≠ 0 := Int.cast_ne_zero.mpr htot
  refine ⟨pops.map (fun (pop : Int) =>
    (pop : ℚ) / ((pops.sum : Int) : ℚ)), ?_, ?_, ?_, ?_⟩
  · unfold UsFusion.get_weight_row
    rw [hmem]
    show (match atoms.mapM (fun atom =>
      if atom ∈ members then
        match (if seasonTruthy season then get_population atom (season.getD 0)
               else get_population atom last_season) with
        | none => Except.error (FusionError.keyError atom)
        | some population => Except.ok population
      else Except.ok 0) with
    | .error e => Except.error e
    | .ok atom_populations =>
      if atom_populations.sum = 0 then
        Except.error (FusionError.noPopulation location)
      else Except.ok (atom_populations.map (fun (pop : Int) =>
        (pop : ℚ) / ((atom_populations.sum : Int) : ℚ)))) = _
    rw [hmap]
    show (if pops.sum = 0 then
        (Except.error (FusionError.noPopulation location) :
          Except FusionError (List ℚ))
      else Except.ok (pops.map (fun (pop : Int) =>
        (pop : ℚ) / ((pops.sum : Int) : ℚ)))) = _
    rw [if_neg htot]
  · simp [hpops]
  · intro i hi hnotm
    refine weight_entry_zero pops _ i (by simpa [hpops] using hi) ?_
    rw [hpops, getD_map_lt _ atoms i "" 0 hi, if_neg hnotm]
  · exact weight_row_sum pops htotQ

/-- C7 witness: the `ny` row over its two atoms with the default
season. -/
theorem C7_witness :
    ∃ row : List ℚ,
      UsFusion.get_weight_row "ny" none ["jfk", "ny_minus_jfk"] = .ok row ∧
        row.length = (["jfk", "ny_minus_jfk"] : List String).length ∧
        (∀ i, i < (["jfk", "ny_minus_jfk"] : List String).length →
          (["jfk", "ny_minus_jfk"] : List String).getD i "" ∉
            ["jfk", "ny_minus_jfk"] → row.getD i 0 = 0) ∧
        row.sum = 1 :=
  C7_theorem "ny" none ["jfk", "ny_minus_jfk"] ["jfk", "ny_minus_jfk"]
    (by decide) (by decide)
    ⟨"jfk", by decide, by decide, 0.02613827, by decide, by decide⟩
